import Mathlib

/-!
Verification development for the `arbitrage_cex_calculator` order-book engine.

The Rust sources are shallowly embedded:
* `src/util.rs`                 → namespace `Util` (decimal-string price parser);
* `src/orderbook/book.rs`       → namespace `Agg` (per-exchange price-level aggregation);
* `src/orderbook/modifications.rs` → namespace `Engine` (the matching engine).

The matching engine in `modifications.rs` manipulates an `OrderBook` whose
declaration (fields `bids`, `asks`, `orders`, `last_traded_at`,
`market_orders_bids`, `market_orders_asks`, the best-price cache and its
accessors `best_bid()`, `best_ask()`, `update_cached_best_bid`,
`update_cached_best_ask`) is not present under `src/` — `book.rs` holds a
newer, per-exchange struct of the same name that does not declare those
members, while `modifications.rs` only calls them.  Those missing members are
modelled from the spec (each such definition carries a doc comment starting
`Modelled from the spec:`).  Everything that is present in
`modifications.rs`, `book.rs` and `util.rs` is translated from that source.

Machine integers (`u64`) are modelled as `Nat` with an explicit `% 2 ^ 64`
where Rust's (release-mode) wrapping arithmetic matters; fallible Rust
functions returning `Result`/`Option` are modelled with `Except`/`Option`.
-/


namespace S2P

/-- `u64::MAX`, used by the spec as the "unknown/empty" sentinel of the
best-ask cache and as the upper bound of parsed `u64` values. -/
def U64_MAX : Nat := 2 ^ 64 - 1

/-- Modulus of `u64` arithmetic. -/
def U64_MOD : Nat := 2 ^ 64

/-- `pricelevel::Side`. -/
inductive Side where
  | Buy
  | Sell
deriving DecidableEq, Repr

/-- `book.rs`: `enum Exchange { Binance, Coinbase, Kraken }`. -/
inductive Exchange where
  | Binance
  | Coinbase
  | Kraken
deriving DecidableEq, Repr

/-! ### Association-list maps

`DashMap`/`BTreeMap` values are modelled as association lists.  `mapLookup`
returns the first binding of a key, `mapSet` replaces it (inserting at the
end when the key is absent, like `entry().or_insert`), `mapRemove` deletes a
key's bindings. -/

/-- First value bound to `k`, like `DashMap::get`. -/
def mapLookup {κ β : Type} [DecidableEq κ] (k : κ) : List (κ × β) → Option β
  | [] => none
  | (k', v) :: rest => if k' = k then some v else mapLookup k rest

/-- Bind `k` to `v`: replace the first binding, or append when absent
(`DashMap::insert` / `entry().or_insert` followed by a write). -/
def mapSet {κ β : Type} [DecidableEq κ] (k : κ) (v : β) : List (κ × β) → List (κ × β)
  | [] => [(k, v)]
  | (k', v') :: rest => if k' = k then (k, v) :: rest else (k', v') :: mapSet k v rest

/-- Delete the bindings of `k` (`DashMap::remove`). -/
def mapRemove {κ β : Type} [DecidableEq κ] (k : κ) (m : List (κ × β)) : List (κ × β) :=
  m.filter (fun e => decide (e.1 ≠ k))

instance exceptDecEq {ε α : Type} [DecidableEq ε] [DecidableEq α] :
    DecidableEq (Except ε α) := fun a b =>
  match a, b with
  | .ok x, .ok y =>
    if h : x = y then .isTrue (by rw [h]) else .isFalse (by intro hc; cases hc; exact h rfl)
  | .error x, .error y =>
    if h : x = y then .isTrue (by rw [h]) else .isFalse (by intro hc; cases hc; exact h rfl)
  | .ok _, .error _ => .isFalse (by intro hc; cases hc)
  | .error _, .ok _ => .isFalse (by intro hc; cases hc)

end S2P

namespace S2P.Util

/-- Result of running `parse_price_cents`: either a returned `Option<u64>`
or a Rust panic (an out-of-char-boundary byte slice). -/
inductive PResult where
  | panicked
  | value (v : Option Nat)
deriving DecidableEq, Repr

/-- Digit run folded to a number, as `str::parse::<u64>` does on digits. -/
def digitsToNat (cs : List Char) : Nat :=
  cs.foldl (fun a c => a * 10 + (c.toNat - '0'.toNat)) 0

/-- `str::parse::<u64>`: an optional leading `+`, then one or more ASCII
digits, value at most `u64::MAX`; anything else is `None`. -/
def parseU64 (cs : List Char) : Option Nat :=
  let cs' := match cs with
    | '+' :: rest => rest
    | other => other
  if cs' ≠ [] ∧ cs'.all Char.isDigit then
    let v := digitsToNat cs'
    if v < U64_MOD then some v else none
  else none

/-- Byte length of a character list under UTF-8, since Rust's `str::len`
and range slicing count bytes. -/
def utf8Len (cs : List Char) : Nat := (cs.map Char.utf8Size).sum

/-- Split at the first `'.'`, like `s.find('.')` with the two slices
`s[..dot_pos]` and `s[dot_pos + 1..]`. -/
def splitAtDot : List Char → List Char × Option (List Char)
  | [] => ([], none)
  | c :: cs =>
    if c = '.' then ([], some cs)
    else
      let (a, r) := splitAtDot cs
      (c :: a, r)

/-- `util.rs::parse_price_cents`, byte-faithfully.  The fractional branch
keys on the *byte* length of the fractional slice and truncates it with the
byte slice `fractional_str[..2]`; when byte 2 falls inside a multi-byte
UTF-8 character that slice panics, modelled by `PResult.panicked`. -/
def parse_price_cents (cs : List Char) : PResult :=
  match splitAtDot cs with
  | (_, none) =>
      -- no decimal point: whole currency units
      .value ((parseU64 cs).map fun v => v * 100 % U64_MOD)
  | (intPart, some fracStr) =>
      match parseU64 intPart with
      | none => .value none
      | some ip =>
        let bl := utf8Len fracStr
        if bl = 0 then .value (some (ip * 100 % U64_MOD))
        else if bl = 1 then
          .value ((parseU64 fracStr).map fun f => (ip * 100 + f * 10) % U64_MOD)
        else if bl = 2 then
          .value ((parseU64 fracStr).map fun f => (ip * 100 + f) % U64_MOD)
        else
          -- more than 2 bytes: truncate via the byte slice `[..2]`
          match fracStr with
          | [] => .panicked
          | c1 :: rest1 =>
            if c1.utf8Size = 2 then
              .value ((parseU64 [c1]).map fun f => (ip * 100 + f) % U64_MOD)
            else if c1.utf8Size = 1 then
              match rest1 with
              | [] => .panicked
              | c2 :: _ =>
                if c2.utf8Size = 1 then
                  .value ((parseU64 [c1, c2]).map fun f => (ip * 100 + f) % U64_MOD)
                else .panicked
            else .panicked

end S2P.Util

namespace S2P.Agg
open S2P

/-- The fields of `book.rs`'s `OrderBook` that `add_exchange_price_level`
reads or writes: `exchange_bids_price_level` and `exchange_asks_price_level`,
each a `DashMap<(u64, Exchange), BTreeMap<u64, u64>>`.  The remaining fields
of the struct (`symbol`, the cached-best maps and the cross-exchange best
tuples) are never touched by that function and are omitted. -/
structure AggBook where
  exchange_bids_price_level : List ((Nat × Exchange) × List (Nat × Nat))
  exchange_asks_price_level : List ((Nat × Exchange) × List (Nat × Nat))
deriving DecidableEq, Repr

/-- `OrderBook::new`, restricted to the two aggregation maps. -/
def aggInit : AggBook := ⟨[], []⟩

/-- `BTreeMap::entry(price).or_insert(0)` followed by `*entry += quantity`
(u64 wrapping addition). -/
def innerAdd (price q : Nat) (m : List (Nat × Nat)) : List (Nat × Nat) :=
  match mapLookup price m with
  | some v => mapSet price ((v + q) % U64_MOD) m
  | none => mapSet price (q % U64_MOD) m

/-- `book.rs::OrderBook::add_exchange_price_level`. -/
def add_exchange_price_level (b : AggBook) (price : Nat) (exchange : Exchange)
    (side : Side) (quantity : Nat) : AggBook :=
  match side with
  | .Buy =>
    let key := (price, exchange)
    let price_level := (mapLookup key b.exchange_bids_price_level).getD []
    { b with exchange_bids_price_level :=
        mapSet key (innerAdd price quantity price_level) b.exchange_bids_price_level }
  | .Sell =>
    let key := (price, exchange)
    let price_level := (mapLookup key b.exchange_asks_price_level).getD []
    { b with exchange_asks_price_level :=
        mapSet key (innerAdd price quantity price_level) b.exchange_asks_price_level }

/-- The side map selected by `side`. -/
def sideAgg (b : AggBook) : Side → List ((Nat × Exchange) × List (Nat × Nat))
  | .Buy => b.exchange_bids_price_level
  | .Sell => b.exchange_asks_price_level

/-- Quantity stored for the `(price, exchange, side)` key: the inner
`BTreeMap` entry at `price` of the outer entry at `(price, exchange)`. -/
def storedQty (b : AggBook) (s : Side) (price : Nat) (ex : Exchange) : Option Nat :=
  (mapLookup (price, ex) (sideAgg b s)).bind (mapLookup price)

/-- Stored quantity read as a number, `0` when absent. -/
def curQty (b : AggBook) (s : Side) (price : Nat) (ex : Exchange) : Nat :=
  (storedQty b s price ex).getD 0

/-- Fold a sequence of `add_exchange_price_level` calls for one key. -/
def applyAdds (b : AggBook) (price : Nat) (ex : Exchange) (s : Side)
    (qs : List Nat) : AggBook :=
  qs.foldl (fun bk q => add_exchange_price_level bk price ex s q) b

end S2P.Agg

namespace S2P.Engine
open S2P

/-- A resting order (`pricelevel::OrderType::Standard`), with the fields
the engine matches on; `time_in_force` is always `Gtc` and is omitted.
Order ids (`OrderId::Uuid`) are modelled as `Nat`. -/
structure Order where
  id : Nat
  price : Nat
  quantity : Nat
  side : Side
  timestamp : Nat
deriving DecidableEq, Repr

/-- A price level: the FIFO queue of resting orders at one price
(`pricelevel::PriceLevel`, an external collaborator of the core). -/
abbrev Level := List Order

/-- `pricelevel::OrderUpdate`, restricted to the four variants the engine
constructs (`modifications.rs` routes only these via `OrderModification`). -/
inductive OrderUpdate where
  | UpdatePrice (order_id new_price : Nat)
  | UpdateQuantity (order_id new_quantity : Nat)
  | UpdatePriceAndQuantity (order_id new_price new_quantity : Nat)
  | Cancel (order_id : Nat)
deriving DecidableEq, Repr

/-- The `anyhow` error messages produced by `modifications.rs`, as an
enumeration: `"Order … not found"`, `"Order … not found in price levels"`,
`"Order … disappeared from orders map"`, `"Price level disappeared"`, and
`add_order`'s context error `"Order … not found in orders map"`. -/
inductive OBErr where
  | orderNotFound
  | orderNotFoundInPriceLevels
  | orderDisappeared
  | priceLevelDisappeared
  | orderNotFoundInOrdersMap
deriving DecidableEq, Repr

/-- Modelled from the spec: the original matching-engine `OrderBook`
(§2, §3) — concurrent side maps price → level, the order index
id → (price, side), one atomic best-price cache per side (bids sentinel 0,
asks sentinel `u64::MAX`), one FIFO market-order retry queue per side of
`(order id, remaining quantity)` pairs, and the last-trade timestamp.
These are exactly the members `modifications.rs` dereferences. -/
structure OrderBook where
  bids : List (Nat × Level)
  asks : List (Nat × Level)
  orders : List (Nat × (Nat × Side))
  cached_best_bid : Nat
  cached_best_ask : Nat
  market_orders_bids : List (Nat × Nat)
  market_orders_asks : List (Nat × Nat)
  last_traded_at : Nat
deriving DecidableEq, Repr

/-- Modelled from the spec: a fresh book — empty maps and queues,
sentinels in both cache slots, last-trade timestamp 0 (the repo's test
`test_last_trade_execution_tracking` asserts the initial value is 0). -/
def initial_book : OrderBook := ⟨[], [], [], 0, U64_MAX, [], [], 0⟩

/-- Modelled from the spec (the external `pricelevel` crate's
`PriceLevel::match_order`, §2/§4.2): match an incoming quantity against the
level's queue under price-time priority; returns the remaining incoming
quantity, the mutated level, and the ids of the fully filled resting
orders.  A partially filled front order stays with reduced quantity. -/
def match_order : Nat → Level → Nat × Level × List Nat
  | qty, [] => (qty, [], [])
  | qty, o :: rest =>
    if qty = 0 then (0, o :: rest, [])
    else if o.quantity ≤ qty then
      let (r, lvl, ids) := match_order (qty - o.quantity) rest
      (r, lvl, o.id :: ids)
    else (0, { o with quantity := o.quantity - qty } :: rest, [])

/-- Remove the (first) order with the given id from a level, returning it
(the `pricelevel` crate's removal used by `update_order` for `Cancel` /
`UpdatePrice`). -/
def removeById (oid : Nat) : Level → Option Order × Level
  | [] => (none, [])
  | o :: rest =>
    if o.id = oid then (some o, rest)
    else
      let (f, r) := removeById oid rest
      (f, o :: r)

/-- Set the quantity of the order with the given id in place, returning the
updated order (the crate's in-level `UpdateQuantity`; the repo's
`test_update_order` observes the level's total quantity change in place). -/
def setQtyById (oid q : Nat) : Level → Option Order × Level
  | [] => (none, [])
  | o :: rest =>
    if o.id = oid then (some { o with quantity := q }, { o with quantity := q } :: rest)
    else
      let (f, r) := setQtyById oid q rest
      (f, o :: r)

/-- Modelled from the spec (`pricelevel::PriceLevel::update_order` as the
code and its tests use it): price-changing updates remove the order from
the level and return it (the engine re-inserts it at the new price);
`UpdateQuantity` mutates in place; `Cancel` removes. -/
def level_update_order : OrderUpdate → Level → Option Order × Level
  | .UpdatePrice oid _, lvl => removeById oid lvl
  | .UpdatePriceAndQuantity oid _ _, lvl => removeById oid lvl
  | .UpdateQuantity oid q, lvl => setQtyById oid q lvl
  | .Cancel oid, lvl => removeById oid lvl

/-- Prices of the levels that currently hold at least one resting order
(`order_count() > 0`). -/
def nonemptyPrices (m : List (Nat × Level)) : List Nat :=
  (m.filter fun e => decide (e.2 ≠ [])).map Prod.fst

/-- Maximum of a list of prices. -/
def maxP? : List Nat → Option Nat
  | [] => none
  | x :: xs =>
    match maxP? xs with
    | none => some x
    | some m => some (max x m)

/-- Minimum of a list of prices. -/
def minP? : List Nat → Option Nat
  | [] => none
  | x :: xs =>
    match minP? xs with
    | none => some x
    | some m => some (min x m)

/-- The maximum price among bid levels with resting orders. -/
def true_best_bid (b : OrderBook) : Option Nat := maxP? (nonemptyPrices b.bids)

/-- The minimum price among ask levels with resting orders. -/
def true_best_ask (b : OrderBook) : Option Nat := minP? (nonemptyPrices b.asks)

/-- Modelled from the spec (§4.1 fallback): full scan over the bid map
restricted to levels with resting orders, writing the scan result (or the
empty sentinel 0) back into the cache. -/
def scan_best_bid (b : OrderBook) : Option Nat × OrderBook :=
  match maxP? (nonemptyPrices b.bids) with
  | some m => (some m, { b with cached_best_bid := m })
  | none => (none, { b with cached_best_bid := 0 })

/-- Modelled from the spec (§4.1 fallback): full scan over the ask map,
writing the scan result (or the `u64::MAX` sentinel) back into the cache. -/
def scan_best_ask (b : OrderBook) : Option Nat × OrderBook :=
  match minP? (nonemptyPrices b.asks) with
  | some m => (some m, { b with cached_best_ask := m })
  | none => (none, { b with cached_best_ask := U64_MAX })

/-- Modelled from the spec (§4.1): `best_bid()` consults the cache; a
non-sentinel cached price whose level still has `order_count() > 0` is
returned as-is; otherwise fall back to the scan. -/
def best_bid (b : OrderBook) : Option Nat × OrderBook :=
  if b.cached_best_bid ≠ 0 then
    match mapLookup b.cached_best_bid b.bids with
    | some lvl => if lvl ≠ [] then (some b.cached_best_bid, b) else scan_best_bid b
    | none => scan_best_bid b
  else scan_best_bid b

/-- Modelled from the spec (§4.1): `best_ask()`, dually with the
`u64::MAX` sentinel. -/
def best_ask (b : OrderBook) : Option Nat × OrderBook :=
  if b.cached_best_ask ≠ U64_MAX then
    match mapLookup b.cached_best_ask b.asks with
    | some lvl => if lvl ≠ [] then (some b.cached_best_ask, b) else scan_best_ask b
    | none => scan_best_ask b
  else scan_best_ask b

/-- Modelled from the spec (§4.1 update policy): `update_cached_best_bid`
overwrites the cache only when the new price improves it (is higher). -/
def update_cached_best_bid (price : Nat) (b : OrderBook) : OrderBook :=
  if b.cached_best_bid < price then { b with cached_best_bid := price } else b

/-- Modelled from the spec (§4.1 update policy): `update_cached_best_ask`
overwrites the cache only when the new price improves it (is lower). -/
def update_cached_best_ask (price : Nat) (b : OrderBook) : OrderBook :=
  if price < b.cached_best_ask then { b with cached_best_ask := price } else b

/-- `entry(price).or_insert_with(PriceLevel::new)` followed by
`add_order`: append the order to the level's queue, creating the level. -/
def mapAddOrder (p : Nat) (o : Order) (m : List (Nat × Level)) : List (Nat × Level) :=
  match mapLookup p m with
  | some lvl => mapSet p (lvl ++ [o]) m
  | none => m ++ [(p, [o])]

/-- The shared insert tail of `add_order`: put the order into its own
side's level, record it in the order index, refresh that side's cache. -/
def insert_resting (b : OrderBook) (o : Order) : OrderBook :=
  match o.side with
  | .Buy =>
    update_cached_best_bid o.price
      { b with bids := mapAddOrder o.price o b.bids,
               orders := mapSet o.id (o.price, Side.Buy) b.orders }
  | .Sell =>
    update_cached_best_ask o.price
      { b with asks := mapAddOrder o.price o b.asks,
               orders := mapSet o.id (o.price, Side.Sell) b.orders }

/-- The matching head of `add_order`: resolve the opposing best price, and
when the incoming order crosses it and the level is still present, match
against that single level.  Returns `(price, remaining, new level, filled
ids)` on a match, and the book as mutated by the best-price call. -/
def limit_match (b : OrderBook) (o : Order) :
    Option (Nat × Nat × Level × List Nat) × OrderBook :=
  match o.side with
  | .Buy =>
    match best_ask b with
    | (some price, b1) =>
      if price ≤ o.price then
        match mapLookup price b1.asks with
        | some lvl =>
          let (rem, lvl2, filled) := match_order o.quantity lvl
          (some (price, rem, lvl2, filled), b1)
        | none => (none, b1)
      else (none, b1)
    | (none, b1) => (none, b1)
  | .Sell =>
    match best_bid b with
    | (some price, b1) =>
      if o.price ≤ price then
        match mapLookup price b1.bids with
        | some lvl =>
          let (rem, lvl2, filled) := match_order o.quantity lvl
          (some (price, rem, lvl2, filled), b1)
        | none => (none, b1)
      else (none, b1)
    | (none, b1) => (none, b1)

/-- `add_order`'s strict removal loop over the filled ids:
`self.orders.remove(id).context("… not found in orders map")?` — the first
missing id aborts with the error, keeping the removals already done. -/
def remove_filled_strict :
    List Nat → List (Nat × (Nat × Side)) → Option OBErr × List (Nat × (Nat × Side))
  | [], m => (none, m)
  | i :: rest, m =>
    match mapLookup i m with
    | some _ => remove_filled_strict rest (mapRemove i m)
    | none => (some .orderNotFoundInOrdersMap, m)

/-- `submit_market_order_direct`'s tolerant removal loop: a missing id is
logged and skipped. -/
def remove_filled_tolerant (ids : List Nat) (m : List (Nat × (Nat × Side))) :
    List (Nat × (Nat × Side)) :=
  ids.foldl (fun a i => mapRemove i a) m

/-- `modifications.rs::OrderBook::add_order`. -/
def add_order (b : OrderBook) (now : Nat) (o : Order) : Except OBErr Nat × OrderBook :=
  match limit_match b o with
  | (some (price, rem, lvl2, filled), b1) =>
    -- the level was mutated in place by `match_order`; a trade happened,
    -- so the last-trade timestamp is updated
    let b2 :=
      match o.side with
      | .Buy => { b1 with asks := mapSet price lvl2 b1.asks, last_traded_at := now }
      | .Sell => { b1 with bids := mapSet price lvl2 b1.bids, last_traded_at := now }
    match remove_filled_strict filled b2.orders with
    | (some e, idx2) => (.error e, { b2 with orders := idx2 })
    | (none, idx2) =>
      let b3 := { b2 with orders := idx2 }
      if 0 < rem then (.ok o.id, insert_resting b3 { o with quantity := rem })
      else (.ok o.id, b3)
  | (none, b1) => (.ok o.id, insert_resting b1 o)

/-- The retry queue of a side (`market_orders_bids` holds deferred market
*buy* orders, `market_orders_asks` deferred market *sell* orders, exactly
as `submit_market_order_direct` pushes them). -/
def side_queue (b : OrderBook) : Side → List (Nat × Nat)
  | .Buy => b.market_orders_bids
  | .Sell => b.market_orders_asks

/-- Replace the retry queue of a side. -/
def set_side_queue (b : OrderBook) : Side → List (Nat × Nat) → OrderBook
  | .Buy, q => { b with market_orders_bids := q }
  | .Sell, q => { b with market_orders_asks := q }

/-- `SegQueue::push`. -/
def push_queue (b : OrderBook) (s : Side) (e : Nat × Nat) : OrderBook :=
  set_side_queue b s (side_queue b s ++ [e])

/-- The opposing side map a market order matches against
(`Side::Buy => &self.asks, Side::Sell => &self.bids`). -/
def opp_levels (b : OrderBook) : Side → List (Nat × Level)
  | .Buy => b.asks
  | .Sell => b.bids

/-- Replace the opposing side map. -/
def set_opp_levels (b : OrderBook) : Side → List (Nat × Level) → OrderBook
  | .Buy, m => { b with asks := m }
  | .Sell, m => { b with bids := m }

/-- The opposing best price used by a market order
(`Side::Buy => best_ask, Side::Sell => best_bid`). -/
def best_opp (b : OrderBook) : Side → Option Nat × OrderBook
  | .Buy => best_ask b
  | .Sell => best_bid b

/-- `modifications.rs::OrderBook::submit_market_order_direct`. -/
def submit_market_order_direct (b : OrderBook) (now order_id quantity : Nat)
    (side : Side) : Except OBErr Nat × OrderBook :=
  match best_opp b side with
  | (some val, b1) =>
    match mapLookup val (opp_levels b1 side) with
    | none => (.error .priceLevelDisappeared, b1)
    | some lvl =>
      let (rem, lvl2, filled) := match_order quantity lvl
      -- remove the level if the match emptied it
      let m2 := if lvl2 = [] then mapRemove val (opp_levels b1 side)
                else mapSet val lvl2 (opp_levels b1 side)
      let b2 := set_opp_levels b1 side m2
      let b3 := { b2 with last_traded_at := now,
                          orders := remove_filled_tolerant filled b2.orders }
      if rem = 0 then (.ok 0, b3)
      else (.ok rem, push_queue b3 side (order_id, rem))
  | (none, b1) => (.ok quantity, push_queue b1 side (order_id, quantity))

/-- The pop loop of `retry_market_orders_for_side`: pop entries, skipping
(and discarding) entries with zero remaining quantity, until `max_orders`
entries have been collected or the queue is exhausted.  Returns the
collected entries and the remaining queue.  (The Rust loop increments
`count` after pushing and breaks on `count >= max_orders`, so even
`max_orders = 0` collects one entry.) -/
def collect_retry : Nat → List (Nat × Nat) → List (Nat × Nat) × List (Nat × Nat)
  | _, [] => ([], [])
  | max_orders, (order_id, remaining_quantity) :: rest =>
    if remaining_quantity = 0 then collect_retry max_orders rest
    else if max_orders ≤ 1 then ([(order_id, remaining_quantity)], rest)
    else
      let (c, r) := collect_retry (max_orders - 1) rest
      ((order_id, remaining_quantity) :: c, r)

/-- `modifications.rs::OrderBook::retry_market_orders_for_side`: pop up to
`max_orders` entries and resubmit each once via
`submit_market_order_direct`, whose result is inspected but never acted on
(any re-enqueue of a remainder is done inside the direct path). -/
def retry_market_orders_for_side (b : OrderBook) (now : Nat) (side : Side)
    (max_orders : Nat) : OrderBook :=
  let (retry_orders, rest) := collect_retry max_orders (side_queue b side)
  let b1 := set_side_queue b side rest
  retry_orders.foldl
    (fun bk e => (submit_market_order_direct bk now e.1 e.2 side).2) b1

/-- Default of the `MAX_ORDERS_PER_RETRY` environment variable; the public
operations below run with the variable unset. -/
def MAX_ORDERS_PER_RETRY_DEFAULT : Nat := 4

/-- `modifications.rs::OrderBook::retry_unfilled_market_orders`: buys
(against asks) first, then sells (against bids). -/
def retry_unfilled_market_orders (b : OrderBook) (now max_orders : Nat) : OrderBook :=
  retry_market_orders_for_side
    (retry_market_orders_for_side b now .Buy max_orders) now .Sell max_orders

/-- `modifications.rs::OrderBook::add_to_limit_order`: build a standard
GTC order stamped `now` and `add_order` it; on success, retry outstanding
market orders. -/
def add_to_limit_order (b : OrderBook) (now id price quantity : Nat)
    (side : Side) : Except OBErr Nat × OrderBook :=
  let o : Order := ⟨id, price, quantity, side, now⟩
  match add_order b now o with
  | (.ok oid, b1) =>
    (.ok oid, retry_unfilled_market_orders b1 now MAX_ORDERS_PER_RETRY_DEFAULT)
  | (.error e, b1) => (.error e, b1)

/-- `modifications.rs::OrderBook::submit_market_order`: the direct path,
then (only on `Ok`) the retry trigger for both sides. -/
def submit_market_order (b : OrderBook) (now order_id quantity : Nat)
    (side : Side) : Except OBErr Nat × OrderBook :=
  match submit_market_order_direct b now order_id quantity side with
  | (.ok r, b1) =>
    (.ok r, retry_unfilled_market_orders b1 now MAX_ORDERS_PER_RETRY_DEFAULT)
  | (.error e, b1) => (.error e, b1)

/-- Keep only levels with `order_count() > 0`
(`price_levels.retain(|_, v| v.order_count() > 0)`). -/
def retainNonempty (m : List (Nat × Level)) : List (Nat × Level) :=
  m.filter fun e => decide (e.2 ≠ [])

/-- The side map holding the order's resting level. -/
def side_levels (b : OrderBook) : Side → List (Nat × Level)
  | .Buy => b.bids
  | .Sell => b.asks

/-- Replace the side map holding the order's resting level. -/
def set_side_levels (b : OrderBook) : Side → List (Nat × Level) → OrderBook
  | .Buy, m => { b with bids := m }
  | .Sell, m => { b with asks := m }

/-- `modifications.rs::OrderBook::update_order`. -/
def update_order (b : OrderBook) (u : OrderUpdate) (order_id : Nat) :
    Except OBErr Unit × OrderBook :=
  match mapLookup order_id b.orders with
  | none => (.error .orderNotFound, b)
  | some (p, s) =>
    match mapLookup p (side_levels b s) with
    | none => (.error .orderNotFoundInPriceLevels, b)
    | some lvl =>
      -- opportunistic prune of an already-empty level, then the in-level
      -- update through the (possibly just unlinked) level handle
      let pm1 := if lvl = [] then mapRemove p (side_levels b s) else side_levels b s
      let (found, lvl2) := level_update_order u lvl
      let pm2 := if lvl = [] then pm1 else mapSet p lvl2 pm1
      match found with
      | none => (.ok (), set_side_levels b s pm2)
      | some ord =>
        match u with
        | .UpdatePrice _ new_price =>
          let copy : Order := { ord with price := new_price }
          (.ok (),
            { set_side_levels b s (retainNonempty (mapAddOrder new_price copy pm2)) with
                orders := mapSet order_id (new_price, s) b.orders })
        | .UpdateQuantity _ _ =>
          -- the level was already updated in place; the detached copy the
          -- code mutates afterwards is dropped
          (.ok (), set_side_levels b s (retainNonempty pm2))
        | .UpdatePriceAndQuantity _ new_price new_quantity =>
          let copy : Order := { ord with price := new_price, quantity := new_quantity }
          (.ok (),
            { set_side_levels b s (retainNonempty (mapAddOrder new_price copy pm2)) with
                orders := mapSet order_id (new_price, s) b.orders })
        | .Cancel oid2 =>
          match mapLookup oid2 b.orders with
          | some _ =>
            (.ok (), { set_side_levels b s (retainNonempty pm2) with
                         orders := mapRemove oid2 b.orders })
          | none => (.error .orderDisappeared, set_side_levels b s pm2)

/-- A public order-book operation, for stating reachability. -/
inductive Op where
  | addLimit (id price quantity : Nat) (s : Side)
  | submitMkt (id quantity : Nat) (s : Side)
  | updOrder (u : OrderUpdate) (order_id : Nat)
deriving DecidableEq, Repr

/-- Run one public operation at wall-clock instant `now`, keeping the book
it leaves behind (also on an error return). -/
def apply_op (now : Nat) (op : Op) (b : OrderBook) : OrderBook :=
  match op with
  | .addLimit id price q s => (add_to_limit_order b now id price q s).2
  | .submitMkt id q s => (submit_market_order b now id q s).2
  | .updOrder u oid => (update_order b u oid).2

/-- Run a clock-stamped sequence of public operations. -/
def apply_seq (b : OrderBook) (l : List (Nat × Op)) : OrderBook :=
  l.foldl (fun bk e => apply_op e.1 e.2 bk) b

/-- The value `best_bid()` returns to its caller. -/
def best_bid_val (b : OrderBook) : Option Nat := (best_bid b).1

/-- The value `best_ask()` returns to its caller. -/
def best_ask_val (b : OrderBook) : Option Nat := (best_ask b).1

/-- A concrete book whose single resting ask (order 9 at price 100) is
missing from the order index, as a concurrent matcher's removal would
leave it. -/
def bookMissingIndexEntry : OrderBook :=
  ⟨[], [(100, [⟨9, 100, 5, .Sell, 0⟩])], [], 0, U64_MAX, [], [], 0⟩

/-- A map whose keys are pairwise distinct (the `DashMap` representation
invariant). -/
def keysNodup {κ β : Type} [DecidableEq κ] (m : List (κ × β)) : Prop :=
  (m.map Prod.fst).Nodup

instance keysNodupDec {κ β : Type} [DecidableEq κ] (m : List (κ × β)) :
    Decidable (keysNodup m) := by
  unfold keysNodup
  infer_instance

/-- A concrete book with one resting ask: order 1, quantity 5, price 100,
indexed. -/
def bookC2Witness : OrderBook :=
  ⟨[], [(100, [⟨1, 100, 5, .Sell, 0⟩])], [(1, (100, .Sell))], 0, U64_MAX, [], [], 0⟩

/-- A concrete book with one resting bid: order 7, quantity 5, price 100. -/
def bookC6Witness : OrderBook :=
  ⟨[(100, [⟨7, 100, 5, .Buy, 0⟩])], [], [(7, (100, .Buy))], 100, U64_MAX, [], [], 0⟩

/-- A concrete book whose bid retry queue holds `(1,2), (2,0), (3,1)`. -/
def bookC7Witness : OrderBook :=
  ⟨[], [], [], 0, U64_MAX, [(1, 2), (2, 0), (3, 1)], [], 0⟩

/-- Wall-clock instants stamped on a sequence of operations, checked to be
at least `c` and non-decreasing. -/
def clocks_ok : Nat → List (Nat × Op) → Bool
  | _, [] => true
  | c, (t, _) :: rest => (decide (c ≤ t)) && clocks_ok t rest

/-- Bid-side cache invariant: every price of a bid level with resting
orders is dominated by the cached best bid. -/
def BidCacheInv (b : OrderBook) : Prop :=
  ∀ p ∈ nonemptyPrices b.bids, p ≤ b.cached_best_bid

/-- Ask-side cache invariant: the cached best ask is a lower bound on
every price of an ask level with resting orders. -/
def AskCacheInv (b : OrderBook) : Prop :=
  ∀ p ∈ nonemptyPrices b.asks, b.cached_best_ask ≤ p

/-- Both cache invariants. -/
def CacheInv (b : OrderBook) : Prop := BidCacheInv b ∧ AskCacheInv b

/-- An `OrderUpdate` that does not move an order to another price. -/
def upd_price_free : OrderUpdate → Bool
  | .UpdatePrice _ _ => false
  | .UpdatePriceAndQuantity _ _ _ => false
  | .UpdateQuantity _ _ => true
  | .Cancel _ => true

/-- A public operation that never moves a resting order between price
levels (any operation except a price-changing modification). -/
def price_move_free : Op → Bool
  | .updOrder u _ => upd_price_free u
  | _ => true

end S2P.Engine

namespace S2P

@[simp] theorem mapLookup_nil {κ β : Type} [DecidableEq κ] (k : κ) :
    mapLookup (β := β) k [] = none := rfl

@[simp] theorem mapLookup_cons {κ β : Type} [DecidableEq κ] (k k' : κ) (v : β)
    (rest : List (κ × β)) :
    mapLookup k ((k', v) :: rest) = if k' = k then some v else mapLookup k rest := rfl

theorem mapLookup_set_self {κ β : Type} [DecidableEq κ] (k : κ) (v : β)
    (m : List (κ × β)) : mapLookup k (mapSet k v m) = some v := by
  induction m with
  | nil => simp [mapSet]
  | cons e rest ih =>
    obtain ⟨k', v'⟩ := e
    by_cases h : k' = k <;> simp [mapSet, h, ih]

theorem mapLookup_set_ne {κ β : Type} [DecidableEq κ] {k k' : κ} (v : β)
    (m : List (κ × β)) (h : k' ≠ k) :
    mapLookup k' (mapSet k v m) = mapLookup k' m := by
  induction m with
  | nil => simp [mapSet, h, Ne.symm h]
  | cons e rest ih =>
    obtain ⟨k'', v''⟩ := e
    by_cases h2 : k'' = k
    · subst h2
      simp [mapSet, Ne.symm h]
    · simp [mapSet, h2]
      split <;> simp_all

@[simp] theorem mapRemove_nil {κ β : Type} [DecidableEq κ] (k : κ) :
    mapRemove (β := β) k [] = [] := rfl

theorem mapRemove_cons {κ β : Type} [DecidableEq κ] (k k' : κ) (v : β)
    (rest : List (κ × β)) :
    mapRemove k ((k', v) :: rest) =
      if k' = k then mapRemove k rest else (k', v) :: mapRemove k rest := by
  by_cases h : k' = k <;> simp [mapRemove, List.filter_cons, h]

theorem mapLookup_remove_self {κ β : Type} [DecidableEq κ] (k : κ)
    (m : List (κ × β)) : mapLookup k (mapRemove k m) = none := by
  induction m with
  | nil => rfl
  | cons e rest ih =>
    obtain ⟨k', v'⟩ := e
    rw [mapRemove_cons]
    by_cases h : k' = k
    · simpa [h] using ih
    · simpa [mapLookup, h] using ih

theorem mapLookup_remove_ne {κ β : Type} [DecidableEq κ] {k k' : κ}
    (m : List (κ × β)) (h : k' ≠ k) :
    mapLookup k' (mapRemove k m) = mapLookup k' m := by
  induction m with
  | nil => rfl
  | cons e rest ih =>
    obtain ⟨k'', v''⟩ := e
    rw [mapRemove_cons]
    by_cases h2 : k'' = k
    · subst h2
      simpa [mapLookup, Ne.symm h] using ih
    · by_cases h3 : k'' = k'
      · simp [mapLookup, h2, h3, h, ih]
      · simp [mapLookup, h2, h3, ih]

theorem mapLookup_remove_none {κ β : Type} [DecidableEq κ] {k j : κ}
    {m : List (κ × β)} (h : mapLookup k m = none) :
    mapLookup k (mapRemove j m) = none := by
  by_cases hkj : k = j
  · subst hkj; exact mapLookup_remove_self k m
  · rw [mapLookup_remove_ne m (fun hh => hkj hh)]; exact h

/-- Membership of an entry of `mapSet` is the new binding or an old entry. -/
theorem mem_mapSet {κ β : Type} [DecidableEq κ] {k : κ} {v : β}
    {m : List (κ × β)} {e : κ × β} (h : e ∈ mapSet k v m) :
    e = (k, v) ∨ e ∈ m := by
  induction m with
  | nil => simpa [mapSet] using h
  | cons e' rest ih =>
    obtain ⟨k', v'⟩ := e'
    by_cases h2 : k' = k
    · simp [mapSet, h2] at h
      rcases h with h | h
      · exact Or.inl (by simp [h])
      · exact Or.inr (by simp [h])
    · simp [mapSet, h2] at h
      rcases h with h | h
      · exact Or.inr (by simp [h])
      · rcases ih h with h3 | h3
        · exact Or.inl h3
        · exact Or.inr (by simp [h3])

theorem mem_mapRemove {κ β : Type} [DecidableEq κ] {k : κ}
    {m : List (κ × β)} {e : κ × β} (h : e ∈ mapRemove k m) : e ∈ m :=
  List.mem_of_mem_filter h

end S2P

namespace S2P.Util

/-- The fractional slice produced by `splitAtDot` is made of characters of
the input. -/
theorem splitAtDot_frac_subset : ∀ (cs a r : List Char),
    splitAtDot cs = (a, some r) → ∀ c ∈ r, c ∈ cs := by
  intro cs
  induction cs with
  | nil => intro a r h2; simp [splitAtDot] at h2
  | cons c cs ih =>
    intro a r h2
    by_cases hc : c = '.'
    · simp [splitAtDot, hc] at h2
      intro x hx
      simp [h2.2 ▸ hx]
    · simp [splitAtDot, hc] at h2
      intro x hx
      have := ih (splitAtDot cs).1 r (by
        rcases h2 with ⟨h3, h4⟩
        exact Prod.ext rfl h4) x hx
      simp [this]

/-- A parse never panics on all-ASCII input. -/
theorem parse_price_cents_ascii_total (cs : List Char)
    (h : ∀ c ∈ cs, Char.utf8Size c = 1) :
    ∃ v, parse_price_cents cs = .value v := by
  rcases hr : splitAtDot cs with ⟨a, r⟩
  rcases r with _ | fracStr
  · exact ⟨(parseU64 cs).map fun v => v * 100 % U64_MOD,
      by simp [parse_price_cents, hr]⟩
  · have hfrac : ∀ c ∈ fracStr, Char.utf8Size c = 1 := fun c hc =>
      h c (splitAtDot_frac_subset cs a fracStr hr c hc)
    rcases hip : parseU64 a with _ | ip
    · exact ⟨none, by simp [parse_price_cents, hr, hip]⟩
    · by_cases h0 : utf8Len fracStr = 0
      · exact ⟨some (ip * 100 % U64_MOD), by simp [parse_price_cents, hr, hip, h0]⟩
      · by_cases h1 : utf8Len fracStr = 1
        · exact ⟨(parseU64 fracStr).map fun f => (ip * 100 + f * 10) % U64_MOD,
            by simp [parse_price_cents, hr, hip, h0, h1]⟩
        · by_cases h2 : utf8Len fracStr = 2
          · exact ⟨(parseU64 fracStr).map fun f => (ip * 100 + f) % U64_MOD,
              by simp [parse_price_cents, hr, hip, h0, h1, h2]⟩
          · rcases fracStr with _ | ⟨c1, rest1⟩
            · simp [utf8Len] at h0
            · have hc1 : Char.utf8Size c1 = 1 := hfrac c1 (by simp)
              rcases rest1 with _ | ⟨c2, rest2⟩
              · exact absurd (by simp [utf8Len, hc1]) h1
              · have hc2 : Char.utf8Size c2 = 1 := hfrac c2 (by simp)
                exact ⟨(parseU64 [c1, c2]).map fun f => (ip * 100 + f) % U64_MOD,
                  by simp [parse_price_cents, hr, hip, h0, h1, h2, hc1, hc2]⟩

end S2P.Util

namespace S2P.Agg
open S2P

/-- Effect of one `add_exchange_price_level` call on its own
`(price, exchange, side)` key: the stored quantity becomes the previous
quantity (0 when absent) plus the added quantity, wrapping at `2 ^ 64`. -/
theorem storedQty_add_self (b : AggBook) (price : Nat) (ex : Exchange)
    (s : Side) (q : Nat) :
    storedQty (add_exchange_price_level b price ex s q) s price ex =
      some ((curQty b s price ex + q) % U64_MOD) := by
  cases s
  case Buy =>
    rcases houter : mapLookup (price, ex) b.exchange_bids_price_level with _ | inner
    · simp [add_exchange_price_level, storedQty, curQty, sideAgg, houter,
        mapLookup_set_self, innerAdd]
    · rcases hin : mapLookup price inner with _ | v <;>
        simp [add_exchange_price_level, storedQty, curQty, sideAgg, houter,
          mapLookup_set_self, innerAdd, hin]
  case Sell =>
    rcases houter : mapLookup (price, ex) b.exchange_asks_price_level with _ | inner
    · simp [add_exchange_price_level, storedQty, curQty, sideAgg, houter,
        mapLookup_set_self, innerAdd]
    · rcases hin : mapLookup price inner with _ | v <;>
        simp [add_exchange_price_level, storedQty, curQty, sideAgg, houter,
          mapLookup_set_self, innerAdd, hin]

/-- One `add_exchange_price_level` call leaves every other
`(price, exchange, side)` key unchanged. -/
theorem storedQty_add_other (b : AggBook) (price : Nat) (ex : Exchange)
    (s : Side) (q : Nat) (p' : Nat) (e' : Exchange) (s' : Side)
    (h : ¬(p' = price ∧ e' = ex ∧ s' = s)) :
    storedQty (add_exchange_price_level b price ex s q) s' p' e' =
      storedQty b s' p' e' := by
  by_cases hs : s' = s
  · subst hs
    have hk : (p', e') ≠ (price, ex) := by
      intro hk
      apply h
      refine ⟨?_, ?_, rfl⟩ <;> simp_all [Prod.ext_iff]
    cases s' <;>
    · simp only [add_exchange_price_level, storedQty, sideAgg]
      rw [mapLookup_set_ne _ _ hk]
  · cases s <;> cases s' <;> simp_all [add_exchange_price_level, storedQty, sideAgg]

/-- A nonempty sequence of adds to one key accumulates: the stored
quantity is the starting quantity plus the sum, modulo `2 ^ 64`. -/
theorem storedQty_applyAdds (price : Nat) (ex : Exchange) (s : Side) :
    ∀ (qs : List Nat) (b : AggBook), qs ≠ [] →
      storedQty (applyAdds b price ex s qs) s price ex =
        some ((curQty b s price ex + qs.sum) % U64_MOD) := by
  intro qs
  induction qs with
  | nil => intro b h; exact absurd rfl h
  | cons q rest ih =>
    intro b _
    rcases hrest : rest with _ | ⟨q2, rest2⟩
    · simpa [applyAdds] using storedQty_add_self b price ex s q
    · rw [← hrest]
      have hstep : applyAdds b price ex s (q :: rest) =
          applyAdds (add_exchange_price_level b price ex s q) price ex s rest := by
        simp [applyAdds]
      rw [hstep, ih _ (by simp [hrest])]
      have hcur : curQty (add_exchange_price_level b price ex s q) s price ex =
          (curQty b s price ex + q) % U64_MOD := by
        simp [curQty, storedQty_add_self b price ex s q]
      rw [hcur]
      simp [List.sum_cons, Nat.mod_add_mod, Nat.add_assoc]

/-- A sequence of adds to one key leaves every other key unchanged. -/
theorem storedQty_applyAdds_other (price : Nat) (ex : Exchange) (s : Side) :
    ∀ (qs : List Nat) (b : AggBook) (p' : Nat) (e' : Exchange) (s' : Side),
      ¬(p' = price ∧ e' = ex ∧ s' = s) →
      storedQty (applyAdds b price ex s qs) s' p' e' = storedQty b s' p' e' := by
  intro qs
  induction qs with
  | nil => intro b p' e' s' _; rfl
  | cons q rest ih =>
    intro b p' e' s' h
    have hstep : applyAdds b price ex s (q :: rest) =
        applyAdds (add_exchange_price_level b price ex s q) price ex s rest := by
      simp [applyAdds]
    rw [hstep, ih _ _ _ _ h, storedQty_add_other b price ex s q p' e' s' h]

/-- C10: for every `(price, exchange, side)` key and every sequence of
`add_exchange_price_level(price, exchange, side, qᵢ)` calls, the quantity
stored for that key in the per-exchange side map equals the sum of all
added `qᵢ` (quantities accumulate rather than overwrite), and entries keyed
by a different price, exchange or side are left unchanged by each call. -/
theorem add_exchange_price_level_accumulates (b : AggBook) (price : Nat)
    (ex : Exchange) (s : Side) (qs : List Nat)
    (h0 : curQty b s price ex = 0) (hne : qs ≠ [])
    (hsum : qs.sum < U64_MOD) :
    storedQty (applyAdds b price ex s qs) s price ex = some qs.sum ∧
    ∀ (p' : Nat) (e' : Exchange) (s' : Side), ¬(p' = price ∧ e' = ex ∧ s' = s) →
      storedQty (applyAdds b price ex s qs) s' p' e' = storedQty b s' p' e' := by
  constructor
  · rw [storedQty_applyAdds price ex s qs b hne, h0, Nat.zero_add,
      Nat.mod_eq_of_lt hsum]
  · intro p' e' s' h
    exact storedQty_applyAdds_other price ex s qs b p' e' s' h

/-- Witness for C10 at a concrete input: three bid adds of 10, 5 and 3 at
price 50000 on Binance accumulate to 18, and the Coinbase key is untouched. -/
theorem add_exchange_price_level_accumulates_witness :
    curQty aggInit .Buy 50000 .Binance = 0 ∧ ([10, 5, 3] : List Nat) ≠ [] ∧
    ([10, 5, 3] : List Nat).sum < U64_MOD ∧
    storedQty (applyAdds aggInit 50000 .Binance .Buy [10, 5, 3]) .Buy 50000 .Binance =
      some 18 ∧
    storedQty (applyAdds aggInit 50000 .Binance .Buy [10, 5, 3]) .Buy 50000 .Coinbase =
      storedQty aggInit .Buy 50000 .Coinbase := by
  refine ⟨by decide, by decide, by decide, ?_, ?_⟩
  · have h := add_exchange_price_level_accumulates aggInit 50000 .Binance .Buy
      [10, 5, 3] (by decide) (by decide) (by decide)
    simpa using h.1
  · have h := add_exchange_price_level_accumulates aggInit 50000 .Binance .Buy
      [10, 5, 3] (by decide) (by decide) (by decide)
    exact h.2 50000 .Coinbase .Buy (by decide)

end S2P.Agg

namespace S2P.Util

/-- C8: `parse_price_cents` splits on the decimal point, zero-pads or
truncates (never rounds) the fractional part to two digits and combines as
`integer_part * 100 + fractional`; a string with no decimal point yields the
parsed value times 100, and plain non-numeric ASCII input yields `none`.
The claim's examples hold.  However, on input `"1.€"` (fractional slice of
more than two bytes that cannot be cut at byte 2) the function panics
rather than returning `none`, because `fractional_str[..2]` is a byte slice
across a UTF-8 character boundary. -/
theorem parse_price_cents_spec :
    parse_price_cents "95245.75".data = .value (some 9524575) ∧
    parse_price_cents "100".data = .value (some 10000) ∧
    parse_price_cents "0.01".data = .value (some 1) ∧
    parse_price_cents "50.5".data = .value (some 5050) ∧
    parse_price_cents "95245.75000000".data = .value (some 9524575) ∧
    parse_price_cents "abc".data = .value none ∧
    (∀ cs : List Char, (splitAtDot cs).2 = none →
      parse_price_cents cs = .value ((parseU64 cs).map fun v => v * 100 % U64_MOD)) ∧
    parse_price_cents "1.€".data = .panicked := by
  refine ⟨by decide, by decide, by decide, by decide, by decide, by decide, ?_, by decide⟩
  intro cs h
  rcases hr : splitAtDot cs with ⟨a, r⟩
  rcases r with _ | fracStr
  · simp [parse_price_cents, hr]
  · rw [hr] at h
    simp at h

end S2P.Util

namespace S2P.Engine
open S2P

/-- `best_bid` only ever rewrites the bid-side cache slot. -/
theorem best_bid_snd_cases (b : OrderBook) :
    ∃ c, (best_bid b).2 = { b with cached_best_bid := c } := by
  have hscan : ∃ c, (scan_best_bid b).2 = { b with cached_best_bid := c } := by
    unfold scan_best_bid
    rcases hm : maxP? (nonemptyPrices b.bids) with _ | m
    · exact ⟨0, rfl⟩
    · exact ⟨m, rfl⟩
  unfold best_bid
  by_cases h : b.cached_best_bid ≠ 0
  · rw [if_pos h]
    rcases hl : mapLookup b.cached_best_bid b.bids with _ | lvl
    · exact hscan
    · by_cases h2 : lvl ≠ []
      · exact ⟨b.cached_best_bid, by simp [h2]⟩
      · simp only [h2, if_false]
        exact hscan
  · rw [if_neg h]; exact hscan

/-- `best_ask` only ever rewrites the ask-side cache slot. -/
theorem best_ask_snd_cases (b : OrderBook) :
    ∃ c, (best_ask b).2 = { b with cached_best_ask := c } := by
  have hscan : ∃ c, (scan_best_ask b).2 = { b with cached_best_ask := c } := by
    unfold scan_best_ask
    rcases hm : minP? (nonemptyPrices b.asks) with _ | m
    · exact ⟨U64_MAX, rfl⟩
    · exact ⟨m, rfl⟩
  unfold best_ask
  by_cases h : b.cached_best_ask ≠ U64_MAX
  · rw [if_pos h]
    rcases hl : mapLookup b.cached_best_ask b.asks with _ | lvl
    · exact hscan
    · by_cases h2 : lvl ≠ []
      · exact ⟨b.cached_best_ask, by simp [h2]⟩
      · simp only [h2, if_false]
        exact hscan
  · rw [if_neg h]; exact hscan

/-- `best_opp` only ever rewrites a cache slot: levels, the order index,
the queues and the timestamp of the book it returns are unchanged. -/
theorem best_opp_snd_fields (b : OrderBook) (s : Side) :
    (best_opp b s).2.bids = b.bids ∧ (best_opp b s).2.asks = b.asks ∧
    (best_opp b s).2.orders = b.orders ∧
    (best_opp b s).2.market_orders_bids = b.market_orders_bids ∧
    (best_opp b s).2.market_orders_asks = b.market_orders_asks ∧
    (best_opp b s).2.last_traded_at = b.last_traded_at := by
  cases s
  · obtain ⟨c, hc⟩ := best_ask_snd_cases b
    simp [best_opp, hc]
  · obtain ⟨c, hc⟩ := best_bid_snd_cases b
    simp [best_opp, hc]

/-- C5 counterexample: on a fresh book, `add_to_limit_order` with
quantity 0 is *not* rejected — it returns `Ok` with the order id, the
zero-quantity order is inserted into the bid level at its price, and it is
recorded in the order index, contradicting the claim that a 0-quantity
order fails at the boundary and never reaches insertion. -/
theorem add_to_limit_order_zero_quantity_accepted :
    (add_to_limit_order initial_book 3 77 100 0 .Buy).1 = .ok 77 ∧
    mapLookup 100 (add_to_limit_order initial_book 3 77 100 0 .Buy).2.bids =
      some [⟨77, 100, 0, .Buy, 3⟩] ∧
    mapLookup 77 (add_to_limit_order initial_book 3 77 100 0 .Buy).2.orders =
      some (100, .Buy) := by
  decide

/-- C5 (amended): `add_to_limit_order` performs no quantity validation.
On a book with no resting asks, a quantity-0 buy order is accepted
(`Ok(id)`) and inserted as a resting order with quantity 0, both into its
price level and into the order index. -/
theorem add_to_limit_order_no_quantity_validation (now id price : Nat) :
    (add_to_limit_order initial_book now id price 0 .Buy).1 = .ok id ∧
    mapLookup price (add_to_limit_order initial_book now id price 0 .Buy).2.bids =
      some [⟨id, price, 0, .Buy, now⟩] ∧
    mapLookup id (add_to_limit_order initial_book now id price 0 .Buy).2.orders =
      some (price, .Buy) := by
  have hbook : add_to_limit_order initial_book now id price 0 .Buy =
      (.ok id, update_cached_best_bid price
        { initial_book with bids := [(price, [⟨id, price, 0, .Buy, now⟩])],
                            orders := [(id, (price, Side.Buy))] }) := by
    simp [add_to_limit_order, add_order, limit_match, best_ask, initial_book, U64_MAX,
      scan_best_ask, nonemptyPrices, minP?, maxP?, insert_resting, mapAddOrder,
      retry_unfilled_market_orders, retry_market_orders_for_side, collect_retry,
      side_queue, set_side_queue, update_cached_best_bid]
    split <;> rfl
  rw [hbook]
  unfold update_cached_best_bid
  split <;> simp [mapLookup]

/-- C3, the code evaluated at the failing input: five deferred unit market
buys followed by `submit_market_order(16, 0, Buy)` leave the entry
`(16, 0)` — remaining quantity zero — resting on the bid-side retry queue
even after the public call's own retry pass, so a zero-remaining entry is
enqueued, contrary to the retry-queue invariant. -/
theorem submit_market_order_zero_quantity_enqueued :
    (16, 0) ∈ (submit_market_order (apply_seq initial_book
      [(1, .submitMkt 11 1 .Buy), (2, .submitMkt 12 1 .Buy), (3, .submitMkt 13 1 .Buy),
       (4, .submitMkt 14 1 .Buy), (5, .submitMkt 15 1 .Buy)])
      6 16 0 .Buy).2.market_orders_bids := by
  decide

/-- C4 counterexample: adding a crossing limit buy against
`bookMissingIndexEntry` fully fills resting order 9, whose id is absent
from the order index — and the add *fails* with the
`"not found in orders map"` error, contradicting the claim that a missing
entry is tolerated on the limit-order path. -/
theorem add_order_missing_index_entry_fails :
    (add_order bookMissingIndexEntry 5 ⟨1, 100, 5, .Buy, 0⟩).1 =
      .error .orderNotFoundInOrdersMap := by
  decide

/-- `add_order`'s strict removal loop errors as soon as any filled id is
missing from the order index. -/
theorem remove_filled_strict_missing :
    ∀ (ids : List Nat) (m : List (Nat × (Nat × Side))),
      (∃ i ∈ ids, mapLookup i m = none) →
      (remove_filled_strict ids m).1 = some .orderNotFoundInOrdersMap := by
  intro ids
  induction ids with
  | nil => intro m h; simp at h
  | cons j rest ih =>
    intro m h
    rcases hj : mapLookup j m with _ | v
    · simp [remove_filled_strict, hj]
    · rcases h with ⟨i, hi, hnone⟩
      rcases List.mem_cons.mp hi with h1 | h1
      · subst h1; rw [hnone] at hj; cases hj
      · simp only [remove_filled_strict, hj]
        exact ih _ ⟨i, h1, mapLookup_remove_none hnone⟩

/-- C4 (amended): index-removal tolerance holds only on the market-order
path.  `submit_market_order_direct` removes fully filled opposing orders
tolerantly and can never fail with the `"not found in orders map"` error;
on the limit path, `add_order` of a crossing order whose match fully fills
an opposing order that is absent from the index fails with exactly that
error instead of tolerating it. -/
theorem index_removal_tolerance_split :
    (∀ (b : OrderBook) (now order_id quantity : Nat) (s : Side),
      (submit_market_order_direct b now order_id quantity s).1 ≠
        .error .orderNotFoundInOrdersMap) ∧
    (∀ (b : OrderBook) (now : Nat) (o : Order) (pr rem : Nat) (lvl2 : Level)
        (filled : List Nat),
      (limit_match b o).1 = some (pr, rem, lvl2, filled) →
      (∃ i ∈ filled, mapLookup i b.orders = none) →
      (add_order b now o).1 = .error .orderNotFoundInOrdersMap) := by
  constructor
  · intro b now order_id quantity s
    unfold submit_market_order_direct
    rcases hb : best_opp b s with ⟨bo, b1⟩
    rcases bo with _ | val
    · simp
    · rcases hl : mapLookup val (opp_levels b1 s) with _ | lvl
      · simp [hl]
      · rcases hm : match_order quantity lvl with ⟨rem, lvl2, filled⟩
        by_cases hr : rem = 0
        · simp [hl, hm, hr]
        · simp [hl, hm, hr]
  · intro b now o pr rem lvl2 filled hmatch hmiss
    have hidx : (limit_match b o).2.orders = b.orders := by
      cases hs : o.side
      · obtain ⟨c, hc⟩ := best_ask_snd_cases b
        unfold limit_match
        rw [hs]
        rcases hba : best_ask b with ⟨bo, b1⟩
        have hb1 : b1 = { b with cached_best_ask := c } := by rw [← hc, hba]
        rcases bo with _ | price
        · simp [hb1]
        · by_cases hp : price ≤ o.price
          · rcases hl2 : mapLookup price b.asks with _ | lvl <;> simp [hp, hl2, hb1]
          · simp [hp, hb1]
      · obtain ⟨c, hc⟩ := best_bid_snd_cases b
        unfold limit_match
        rw [hs]
        rcases hba : best_bid b with ⟨bo, b1⟩
        have hb1 : b1 = { b with cached_best_bid := c } := by rw [← hc, hba]
        rcases bo with _ | price
        · simp [hb1]
        · by_cases hp : o.price ≤ price
          · rcases hl2 : mapLookup price b.bids with _ | lvl <;> simp [hp, hl2, hb1]
          · simp [hp, hb1]
    have hlm0 := rfl (a := limit_match b o)
    rcases hlm : limit_match b o with ⟨mo, b1⟩
    rw [hlm] at hmatch hidx
    simp only at hmatch hidx
    subst hmatch
    have hmiss2 : (remove_filled_strict filled b.orders).1 = some .orderNotFoundInOrdersMap :=
      remove_filled_strict_missing filled b.orders hmiss
    unfold add_order
    rw [hlm]
    cases hs : o.side <;>
    · simp only [hs]
      rcases hrs : remove_filled_strict filled b1.orders with ⟨err, idx2⟩
      rw [hidx] at hrs
      rw [hrs] at hmiss2
      simp only at hmiss2
      subst hmiss2
      simp [hidx, hrs]

/-- Witness for the amended C4 at `bookMissingIndexEntry`: the market path
tolerates the missing index entry while the limit path fails. -/
theorem index_removal_tolerance_split_witness :
    (submit_market_order_direct bookMissingIndexEntry 5 1 5 .Buy).1 ≠
      .error .orderNotFoundInOrdersMap ∧
    (limit_match bookMissingIndexEntry ⟨1, 100, 5, .Buy, 0⟩).1 = some (100, 0, [], [9]) ∧
    (∃ i ∈ [9], mapLookup i bookMissingIndexEntry.orders = none) ∧
    (add_order bookMissingIndexEntry 5 ⟨1, 100, 5, .Buy, 0⟩).1 =
      .error .orderNotFoundInOrdersMap :=
  ⟨index_removal_tolerance_split.1 bookMissingIndexEntry 5 1 5 .Buy,
   by decide, by decide,
   index_removal_tolerance_split.2 bookMissingIndexEntry 5 ⟨1, 100, 5, .Buy, 0⟩ 100 0 [] [9]
     (by decide) (by decide)⟩

theorem mapLookup_mem {κ β : Type} [DecidableEq κ] {k : κ} {v : β}
    {m : List (κ × β)} (h : mapLookup k m = some v) : (k, v) ∈ m := by
  induction m with
  | nil => cases h
  | cons e rest ih =>
    obtain ⟨k', v'⟩ := e
    by_cases h2 : k' = k
    · subst h2
      simp [mapLookup] at h
      simp [h]
    · simp [mapLookup, h2] at h
      simp [ih h]

theorem mem_nonemptyPrices_iff {m : List (Nat × Level)} {p : Nat} :
    p ∈ nonemptyPrices m ↔ ∃ lvl, (p, lvl) ∈ m ∧ lvl ≠ [] := by
  simp only [nonemptyPrices, List.mem_map, List.mem_filter]
  constructor
  · rintro ⟨⟨q, lvl⟩, ⟨hm, hne⟩, hq⟩
    exact ⟨lvl, by simpa [← hq] using hm, by simpa using hne⟩
  · rintro ⟨lvl, hm, hne⟩
    exact ⟨(p, lvl), ⟨hm, by simpa using hne⟩, rfl⟩

theorem mem_nonemptyPrices_of_lookup {m : List (Nat × Level)} {p : Nat}
    {lvl : Level} (h : mapLookup p m = some lvl) (hne : lvl ≠ []) :
    p ∈ nonemptyPrices m :=
  mem_nonemptyPrices_iff.mpr ⟨lvl, mapLookup_mem h, hne⟩

/-- Under distinct keys, a price with a nonempty level looks up to a
nonempty level. -/
theorem lookup_of_mem_nonemptyPrices {m : List (Nat × Level)} {p : Nat}
    (hnd : keysNodup m) (h : p ∈ nonemptyPrices m) :
    ∃ lvl, mapLookup p m = some lvl ∧ lvl ≠ [] := by
  induction m with
  | nil => simp [nonemptyPrices] at h
  | cons e rest ih =>
    obtain ⟨k, v⟩ := e
    have hnd2 : keysNodup rest := (List.nodup_cons.mp hnd).2
    rcases mem_nonemptyPrices_iff.mp h with ⟨lvl, hm, hne⟩
    rcases List.mem_cons.mp hm with h1 | h1
    · obtain ⟨hk, hv⟩ := Prod.mk.injEq .. ▸ h1
      simp only [Prod.mk.injEq] at h1
      exact ⟨lvl, by simp [mapLookup, h1.1, h1.2], hne⟩
    · have hk : k ≠ p := by
        intro hk
        subst hk
        exact (List.nodup_cons.mp hnd).1 (by
          simp only [List.mem_map]
          exact ⟨(k, lvl), h1, rfl⟩)
      have : p ∈ nonemptyPrices rest := mem_nonemptyPrices_iff.mpr ⟨lvl, h1, hne⟩
      rcases ih hnd2 this with ⟨lvl2, hl2, hne2⟩
      exact ⟨lvl2, by simp [mapLookup, hk, hl2], hne2⟩

theorem maxP?_eq_none_iff (l : List Nat) : maxP? l = none ↔ l = [] := by
  cases l with
  | nil => simp [maxP?]
  | cons x xs =>
    simp only [maxP?]
    rcases maxP? xs with _ | m <;> simp

theorem minP?_eq_none_iff (l : List Nat) : minP? l = none ↔ l = [] := by
  cases l with
  | nil => simp [minP?]
  | cons x xs =>
    simp only [minP?]
    rcases minP? xs with _ | m <;> simp

theorem maxP?_mem : ∀ {l : List Nat} {m : Nat}, maxP? l = some m → m ∈ l := by
  intro l
  induction l with
  | nil => intro m h; cases h
  | cons x xs ih =>
    intro m h
    simp only [maxP?] at h
    rcases hm : maxP? xs with _ | m'
    · rw [hm] at h
      simp at h
      simp [h]
    · rw [hm] at h
      simp at h
      subst h
      rcases max_choice x m' with h2 | h2 <;> rw [h2]
      · exact List.mem_cons_self x xs
      · exact List.mem_cons_of_mem x (ih hm)

theorem minP?_mem : ∀ {l : List Nat} {m : Nat}, minP? l = some m → m ∈ l := by
  intro l
  induction l with
  | nil => intro m h; cases h
  | cons x xs ih =>
    intro m h
    simp only [minP?] at h
    rcases hm : minP? xs with _ | m'
    · rw [hm] at h
      simp at h
      simp [h]
    · rw [hm] at h
      simp at h
      subst h
      rcases min_choice x m' with h2 | h2 <;> rw [h2]
      · exact List.mem_cons_self x xs
      · exact List.mem_cons_of_mem x (ih hm)

theorem le_maxP? : ∀ {l : List Nat} {a m : Nat}, a ∈ l → maxP? l = some m → a ≤ m := by
  intro l
  induction l with
  | nil => intro a m h; cases h
  | cons x xs ih =>
    intro a m ha h
    simp only [maxP?] at h
    rcases hm : maxP? xs with _ | m'
    · rw [hm] at h
      simp at h
      have hxs : xs = [] := (maxP?_eq_none_iff xs).mp hm
      subst hxs
      simp at ha
      simp [ha, h]
    · rw [hm] at h
      simp at h
      subst h
      rcases List.mem_cons.mp ha with h1 | h1
      · subst h1; exact le_max_left a m'
      · exact le_trans (ih h1 hm) (le_max_right x m')

theorem minP?_le : ∀ {l : List Nat} {a m : Nat}, a ∈ l → minP? l = some m → m ≤ a := by
  intro l
  induction l with
  | nil => intro a m h; cases h
  | cons x xs ih =>
    intro a m ha h
    simp only [minP?] at h
    rcases hm : minP? xs with _ | m'
    · rw [hm] at h
      simp at h
      have hxs : xs = [] := (minP?_eq_none_iff xs).mp hm
      subst hxs
      simp at ha
      simp [ha, ← h]
    · rw [hm] at h
      simp at h
      subst h
      rcases List.mem_cons.mp ha with h1 | h1
      · subst h1; exact min_le_left a m'
      · exact le_trans (min_le_right x m') (ih h1 hm)

theorem maxP?_eq_of_mem_ub {l : List Nat} {a : Nat} (ha : a ∈ l)
    (hub : ∀ x ∈ l, x ≤ a) : maxP? l = some a := by
  rcases hm : maxP? l with _ | m
  · rw [maxP?_eq_none_iff] at hm
    subst hm
    cases ha
  · have h1 : a ≤ m := le_maxP? ha hm
    have h2 : m ≤ a := hub m (maxP?_mem hm)
    rw [Nat.le_antisymm h2 h1]

theorem minP?_eq_of_mem_lb {l : List Nat} {a : Nat} (ha : a ∈ l)
    (hlb : ∀ x ∈ l, a ≤ x) : minP? l = some a := by
  rcases hm : minP? l with _ | m
  · rw [minP?_eq_none_iff] at hm
    subst hm
    cases ha
  · have h1 : m ≤ a := minP?_le ha hm
    have h2 : a ≤ m := hlb m (minP?_mem hm)
    rw [Nat.le_antisymm h1 h2]

theorem scan_best_bid_fst (b : OrderBook) :
    (scan_best_bid b).1 = maxP? (nonemptyPrices b.bids) := by
  unfold scan_best_bid
  rcases hm : maxP? (nonemptyPrices b.bids) with _ | m <;> simp

theorem scan_best_ask_fst (b : OrderBook) :
    (scan_best_ask b).1 = minP? (nonemptyPrices b.asks) := by
  unfold scan_best_ask
  rcases hm : minP? (nonemptyPrices b.asks) with _ | m <;> simp

/-- `best_bid` returns either the scan result or a verified cached hit. -/
theorem best_bid_val_cases (b : OrderBook) :
    best_bid_val b = maxP? (nonemptyPrices b.bids) ∨
    (best_bid_val b = some b.cached_best_bid ∧
      ∃ lvl, mapLookup b.cached_best_bid b.bids = some lvl ∧ lvl ≠ []) := by
  unfold best_bid_val best_bid
  by_cases h : b.cached_best_bid ≠ 0
  · rw [if_pos h]
    rcases hl : mapLookup b.cached_best_bid b.bids with _ | lvl
    · exact Or.inl (scan_best_bid_fst b)
    · by_cases h2 : lvl ≠ []
      · exact Or.inr ⟨by simp [h2], lvl, rfl, h2⟩
      · simp only [h2, if_false]
        exact Or.inl (scan_best_bid_fst b)
  · rw [if_neg h]
    exact Or.inl (scan_best_bid_fst b)

/-- `best_ask` returns either the scan result or a verified cached hit. -/
theorem best_ask_val_cases (b : OrderBook) :
    best_ask_val b = minP? (nonemptyPrices b.asks) ∨
    (best_ask_val b = some b.cached_best_ask ∧
      ∃ lvl, mapLookup b.cached_best_ask b.asks = some lvl ∧ lvl ≠ []) := by
  unfold best_ask_val best_ask
  by_cases h : b.cached_best_ask ≠ U64_MAX
  · rw [if_pos h]
    rcases hl : mapLookup b.cached_best_ask b.asks with _ | lvl
    · exact Or.inl (scan_best_ask_fst b)
    · by_cases h2 : lvl ≠ []
      · exact Or.inr ⟨by simp [h2], lvl, rfl, h2⟩
      · simp only [h2, if_false]
        exact Or.inl (scan_best_ask_fst b)
  · rw [if_neg h]
    exact Or.inl (scan_best_ask_fst b)

theorem best_bid_val_some_mem {b : OrderBook} {val : Nat}
    (h : best_bid_val b = some val) : val ∈ nonemptyPrices b.bids := by
  rcases best_bid_val_cases b with h2 | ⟨h2, lvl, hl, hne⟩
  · exact maxP?_mem (by rw [← h2]; exact h)
  · rw [h2] at h
    cases h
    exact mem_nonemptyPrices_of_lookup hl hne

theorem best_ask_val_some_mem {b : OrderBook} {val : Nat}
    (h : best_ask_val b = some val) : val ∈ nonemptyPrices b.asks := by
  rcases best_ask_val_cases b with h2 | ⟨h2, lvl, hl, hne⟩
  · exact minP?_mem (by rw [← h2]; exact h)
  · rw [h2] at h
    cases h
    exact mem_nonemptyPrices_of_lookup hl hne

theorem best_opp_some_mem {b : OrderBook} {s : Side} {val : Nat}
    (h : (best_opp b s).1 = some val) : val ∈ nonemptyPrices (opp_levels b s) := by
  cases s
  · exact best_ask_val_some_mem h
  · exact best_bid_val_some_mem h

theorem best_opp_some_lookup {b : OrderBook} {s : Side} {val : Nat}
    (hnd : keysNodup (opp_levels b s)) (h : (best_opp b s).1 = some val) :
    ∃ lvl, mapLookup val (opp_levels b s) = some lvl ∧ lvl ≠ [] :=
  lookup_of_mem_nonemptyPrices hnd (best_opp_some_mem h)

theorem side_queue_set_opp_levels (b : OrderBook) (s s' : Side)
    (m : List (Nat × Level)) :
    side_queue (set_opp_levels b s m) s' = side_queue b s' := by
  cases s <;> cases s' <;> rfl

theorem opp_levels_set_opp_levels_self (b : OrderBook) (s : Side)
    (m : List (Nat × Level)) : opp_levels (set_opp_levels b s m) s = m := by
  cases s <;> rfl

theorem side_queue_push_queue_self (b : OrderBook) (s : Side) (e : Nat × Nat) :
    side_queue (push_queue b s e) s = side_queue b s ++ [e] := by
  cases s <;> rfl

theorem side_queue_push_queue_other (b : OrderBook) {s s' : Side} (e : Nat × Nat)
    (h : s' ≠ s) : side_queue (push_queue b s e) s' = side_queue b s' := by
  cases s <;> cases s' <;> first | rfl | exact absurd rfl h

theorem opp_levels_best_opp (b : OrderBook) (s s' : Side) :
    opp_levels (best_opp b s).2 s' = opp_levels b s' := by
  obtain ⟨h1, h2, _, _, _, _⟩ := best_opp_snd_fields b s
  cases s' <;> simp [opp_levels, h1, h2]

theorem side_queue_best_opp (b : OrderBook) (s s' : Side) :
    side_queue (best_opp b s).2 s' = side_queue b s' := by
  obtain ⟨_, _, _, h4, h5, _⟩ := best_opp_snd_fields b s
  cases s' <;> simp [side_queue, h4, h5]

theorem side_queue_update_misc (x : OrderBook) (t : Nat)
    (od : List (Nat × (Nat × Side))) (s : Side) :
    side_queue { x with last_traded_at := t, orders := od } s = side_queue x s := by
  cases s <;> rfl

theorem opp_levels_update_misc (x : OrderBook) (t : Nat)
    (od : List (Nat × (Nat × Side))) (s : Side) :
    opp_levels { x with last_traded_at := t, orders := od } s = opp_levels x s := by
  cases s <;> rfl

theorem opp_levels_push_queue (x : OrderBook) (s s' : Side) (e : Nat × Nat) :
    opp_levels (push_queue x s e) s' = opp_levels x s' := by
  cases s <;> cases s' <;> rfl

/-- Unfolding equation for the matched branch of
`submit_market_order_direct`. -/
theorem submit_direct_eq_some (b : OrderBook) (now order_id quantity val : Nat)
    (s : Side) (lvl : Level)
    (hval : best_opp b s = (some val, (best_opp b s).2))
    (hlook : mapLookup val (opp_levels (best_opp b s).2 s) = some lvl) :
    submit_market_order_direct b now order_id quantity s =
      (let res := match_order quantity lvl
       let b1 := (best_opp b s).2
       let m2 := if res.2.1 = [] then mapRemove val (opp_levels b1 s)
                 else mapSet val res.2.1 (opp_levels b1 s)
       let b2 := set_opp_levels b1 s m2
       let b3 := { b2 with last_traded_at := now,
                           orders := remove_filled_tolerant res.2.2 b2.orders }
       if res.1 = 0 then (.ok 0, b3)
       else (.ok res.1, push_queue b3 s (order_id, res.1))) := by
  unfold submit_market_order_direct
  rw [hval]
  simp only [hlook]

/-- C2: `submit_market_order` semantics.  When the opposing side has no
best price, `(order_id, quantity)` is enqueued on the submitting side's
retry queue and the full quantity is returned as remaining.  Otherwise the
order is matched against the single best opposing level `val` (which the
best-price read guarantees to exist with resting orders): the call returns
the remaining quantity of that single-level match (`Ok 0` signalling a
complete fill), a positive remainder is enqueued as `(order_id, remaining)`
on the same queue, a zero remainder enqueues nothing, and the only level
rewritten on the opposing side is the one at `val` (removed when emptied).
The public `submit_market_order` returns exactly the direct path's value. -/
theorem submit_market_order_spec (b : OrderBook) (now order_id quantity : Nat)
    (s : Side) (hnodup : keysNodup (opp_levels b s)) :
    ((best_opp b s).1 = none →
      (submit_market_order_direct b now order_id quantity s).1 = .ok quantity ∧
      side_queue (submit_market_order_direct b now order_id quantity s).2 s =
        side_queue b s ++ [(order_id, quantity)]) ∧
    (∀ val, (best_opp b s).1 = some val →
      ∃ lvl, mapLookup val (opp_levels b s) = some lvl ∧ lvl ≠ [] ∧
        (submit_market_order_direct b now order_id quantity s).1 =
          .ok (match_order quantity lvl).1 ∧
        ((match_order quantity lvl).1 = 0 →
          side_queue (submit_market_order_direct b now order_id quantity s).2 s =
            side_queue b s) ∧
        (0 < (match_order quantity lvl).1 →
          side_queue (submit_market_order_direct b now order_id quantity s).2 s =
            side_queue b s ++ [(order_id, (match_order quantity lvl).1)]) ∧
        opp_levels (submit_market_order_direct b now order_id quantity s).2 s =
          (if (match_order quantity lvl).2.1 = [] then mapRemove val (opp_levels b s)
           else mapSet val (match_order quantity lvl).2.1 (opp_levels b s))) ∧
    (submit_market_order b now order_id quantity s).1 =
      (submit_market_order_direct b now order_id quantity s).1 := by
  refine ⟨?_, ?_, ?_⟩
  · intro hnone
    have hb : best_opp b s = (none, (best_opp b s).2) := Prod.ext hnone rfl
    have hD : submit_market_order_direct b now order_id quantity s =
        (.ok quantity, push_queue (best_opp b s).2 s (order_id, quantity)) := by
      unfold submit_market_order_direct
      rw [hb]
    rw [hD]
    exact ⟨rfl, by rw [side_queue_push_queue_self, side_queue_best_opp]⟩
  · intro val hval
    obtain ⟨lvl, hlookup, hne⟩ := best_opp_some_lookup hnodup hval
    have hb : best_opp b s = (some val, (best_opp b s).2) := Prod.ext hval rfl
    have hlook1 : mapLookup val (opp_levels (best_opp b s).2 s) = some lvl := by
      rw [opp_levels_best_opp]
      exact hlookup
    have hD := submit_direct_eq_some b now order_id quantity val s lvl hb hlook1
    refine ⟨lvl, hlookup, hne, ?_, ?_, ?_, ?_⟩
    · rw [hD]
      simp only
      by_cases hrem : (match_order quantity lvl).1 = 0
      · simp [hrem]
      · simp [hrem]
    · intro hrem
      rw [hD]
      simp only [hrem, if_pos]
      rw [side_queue_update_misc, side_queue_set_opp_levels, side_queue_best_opp]
    · intro hpos
      have hrem : ¬((match_order quantity lvl).1 = 0) := by omega
      rw [hD]
      simp only [hrem, if_false]
      rw [side_queue_push_queue_self, side_queue_update_misc,
        side_queue_set_opp_levels, side_queue_best_opp]
    · rw [hD]
      simp only
      by_cases hrem : (match_order quantity lvl).1 = 0
      · simp only [hrem, if_pos]
        rw [opp_levels_update_misc, opp_levels_set_opp_levels_self,
          opp_levels_best_opp]
      · simp only [hrem, if_false]
        rw [opp_levels_push_queue, opp_levels_update_misc,
          opp_levels_set_opp_levels_self, opp_levels_best_opp]
  · unfold submit_market_order
    rcases hd : submit_market_order_direct b now order_id quantity s with ⟨r, b1⟩
    rcases r with e | rv <;> simp

/-- Witness for C2 on a concrete book: one resting ask of quantity 5 at
price 100; a market buy of 5 fills completely (`Ok 0`) and enqueues
nothing, and on the fresh (empty) book a market buy of 5 defers. -/
theorem submit_market_order_spec_witness :
    keysNodup (opp_levels bookC2Witness .Buy) ∧
    (best_opp bookC2Witness .Buy).1 = some 100 ∧
    (∃ lvl, mapLookup 100 (opp_levels bookC2Witness .Buy) = some lvl ∧ lvl ≠ [] ∧
      (submit_market_order_direct bookC2Witness 7 9 5 .Buy).1 =
        .ok (match_order 5 lvl).1 ∧
      ((match_order 5 lvl).1 = 0 →
        side_queue (submit_market_order_direct bookC2Witness 7 9 5 .Buy).2 .Buy =
          side_queue bookC2Witness .Buy) ∧
      (0 < (match_order 5 lvl).1 →
        side_queue (submit_market_order_direct bookC2Witness 7 9 5 .Buy).2 .Buy =
          side_queue bookC2Witness .Buy ++ [(9, (match_order 5 lvl).1)]) ∧
      opp_levels (submit_market_order_direct bookC2Witness 7 9 5 .Buy).2 .Buy =
        (if (match_order 5 lvl).2.1 = [] then
          mapRemove 100 (opp_levels bookC2Witness .Buy)
         else mapSet 100 (match_order 5 lvl).2.1 (opp_levels bookC2Witness .Buy))) ∧
    (best_opp initial_book .Buy).1 = none ∧
    (submit_market_order_direct initial_book 7 9 5 .Buy).1 = .ok 5 ∧
    side_queue (submit_market_order_direct initial_book 7 9 5 .Buy).2 .Buy =
      side_queue initial_book .Buy ++ [(9, 5)] :=
  ⟨by decide, by decide,
   (submit_market_order_spec bookC2Witness 7 9 5 .Buy (by decide)).2.1 100 (by decide),
   by decide,
   (submit_market_order_spec initial_book 7 9 5 .Buy (by decide)).1 (by decide)⟩

theorem keysNodup_mapSet {κ β : Type} [DecidableEq κ] {k : κ} {v : β}
    {m : List (κ × β)} (hnd : keysNodup m) : keysNodup (mapSet k v m) := by
  induction m with
  | nil => simp [keysNodup, mapSet]
  | cons e rest ih =>
    obtain ⟨k', v'⟩ := e
    obtain ⟨hh, ht⟩ := List.nodup_cons.mp hnd
    by_cases h2 : k' = k
    · subst h2
      simpa [keysNodup, mapSet] using ⟨by simpa [keysNodup] using hh, ht⟩
    · have ih2 := ih ht
      have hmem : ∀ q, q ∈ (mapSet k v rest).map Prod.fst → q = k ∨ q ∈ rest.map Prod.fst := by
        intro q hq
        simp only [List.mem_map] at hq
        obtain ⟨e2, he2, hq2⟩ := hq
        rcases mem_mapSet he2 with h3 | h3
        · left; rw [← hq2, h3]
        · right; exact List.mem_map.mpr ⟨e2, h3, hq2⟩
      simp only [keysNodup, mapSet, h2, if_false, List.map_cons, List.nodup_cons]
      refine ⟨?_, ih2⟩
      intro hc
      rcases hmem k' hc with h3 | h3
      · exact h2 h3
      · exact hh (by simpa [keysNodup] using h3)

/-- Under distinct keys, a `retain` pass keeps exactly the nonempty
binding of each key. -/
theorem mapLookup_retain {m : List (Nat × Level)} (p : Nat)
    (hnd : keysNodup m) :
    mapLookup p (retainNonempty m) =
      (mapLookup p m).bind (fun v => if v ≠ [] then some v else none) := by
  induction m with
  | nil => simp [retainNonempty]
  | cons e rest ih =>
    obtain ⟨k, v⟩ := e
    obtain ⟨hh, ht⟩ := List.nodup_cons.mp hnd
    have ih2 := ih ht
    by_cases hv : v ≠ []
    · have hfc : retainNonempty ((k, v) :: rest) = (k, v) :: retainNonempty rest := by
        simp [retainNonempty, List.filter_cons, hv]
      rw [hfc]
      by_cases hk : k = p
      · subst hk
        simp [mapLookup, hv]
      · simp only [mapLookup_cons, if_neg hk]
        exact ih2
    · have hfc : retainNonempty ((k, v) :: rest) = retainNonempty rest := by
        simp [retainNonempty, List.filter_cons, hv]
      rw [hfc, ih2]
      by_cases hk : k = p
      · subst hk
        have hnone : mapLookup k rest = none := by
          rcases hl : mapLookup k rest with _ | v2
          · rfl
          · exact absurd (List.mem_map.mpr ⟨(k, v2), mapLookup_mem hl, rfl⟩) hh
        rw [hnone]
        simp [mapLookup, not_not.mp hv]
      · simp only [mapLookup_cons, if_neg hk]

/-- Removing by id from a level that holds the id exactly once: the order
comes back, the id is gone, and the level shrinks by one. -/
theorem removeById_spec (oid : Nat) : ∀ (lvl : Level),
    lvl.countP (fun o => decide (o.id = oid)) = 1 →
    ∃ o lvl2, removeById oid lvl = (some o, lvl2) ∧ o.id = oid ∧
      lvl2.countP (fun o => decide (o.id = oid)) = 0 ∧
      lvl2.length = lvl.length - 1 := by
  intro lvl
  induction lvl with
  | nil => intro h; simp at h
  | cons o rest ih =>
    intro h
    by_cases ho : o.id = oid
    · have hc : (o :: rest).countP (fun x => decide (x.id = oid)) =
          rest.countP (fun x => decide (x.id = oid)) + 1 := by
        simp [List.countP_cons, ho]
      exact ⟨o, rest, by simp [removeById, ho], ho, by omega, by simp⟩
    · have hc : (o :: rest).countP (fun x => decide (x.id = oid)) =
          rest.countP (fun x => decide (x.id = oid)) := by
        simp [List.countP_cons, ho]
      have hcount : rest.countP (fun x => decide (x.id = oid)) = 1 := by omega
      obtain ⟨o2, lvl2, hrem, hid, hc0, hlen⟩ := ih hcount
      have hpos : 0 < rest.length := by
        by_contra hle
        have hnil : rest = [] := List.eq_nil_of_length_eq_zero (by omega)
        rw [hnil] at hcount
        simp at hcount
      refine ⟨o2, o :: lvl2, by simp [removeById, ho, hrem], hid, ?_, ?_⟩
      · simp [List.countP_cons, ho, hc0]
      · simp only [List.length_cons]
        omega

/-- An id absent from the order index makes any `update_order` fail with
the "order not found" error. -/
theorem update_order_not_found (b : OrderBook) (u : OrderUpdate) (oid : Nat)
    (h : mapLookup oid b.orders = none) :
    (update_order b u oid).1 = .error .orderNotFound := by
  unfold update_order
  rw [h]

theorem orders_set_side_levels (b : OrderBook) (s : Side)
    (m : List (Nat × Level)) : (set_side_levels b s m).orders = b.orders := by
  cases s <;> rfl

theorem side_levels_set_side_levels_self (b : OrderBook) (s : Side)
    (m : List (Nat × Level)) : side_levels (set_side_levels b s m) s = m := by
  cases s <;> rfl

/-- Unfolding equation for a successful `Cancel` through `update_order`. -/
theorem update_order_cancel_eq (b : OrderBook) (oid p : Nat) (s : Side)
    (lvl : Level) (o0 : Order) (lvl2 : Level)
    (hidx : mapLookup oid b.orders = some (p, s))
    (hlvl : mapLookup p (side_levels b s) = some lvl)
    (hne : lvl ≠ [])
    (hrem : removeById oid lvl = (some o0, lvl2)) :
    update_order b (.Cancel oid) oid =
      (.ok (), { set_side_levels b s (retainNonempty (mapSet p lvl2 (side_levels b s))) with
                   orders := mapRemove oid b.orders }) := by
  unfold update_order
  rw [hidx]
  simp only [hlvl, level_update_order, hrem, hne, if_false, hidx]

/-- C6: cancelling a resting order removes it from both its price level
and the order index; a level left without orders is pruned from the side
map; and a second `Cancel` of the same id fails with the
"order not found" error rather than panicking. -/
theorem update_order_cancel_spec (b : OrderBook) (oid p : Nat) (s : Side)
    (lvl : Level)
    (hidx : mapLookup oid b.orders = some (p, s))
    (hlvl : mapLookup p (side_levels b s) = some lvl)
    (hcount : lvl.countP (fun o => decide (o.id = oid)) = 1)
    (hnd : keysNodup (side_levels b s)) :
    (update_order b (.Cancel oid) oid).1 = .ok () ∧
    mapLookup oid (update_order b (.Cancel oid) oid).2.orders = none ∧
    (∀ lvl2, mapLookup p (side_levels (update_order b (.Cancel oid) oid).2 s) = some lvl2 →
      ∀ o ∈ lvl2, o.id ≠ oid) ∧
    (lvl.length = 1 →
      mapLookup p (side_levels (update_order b (.Cancel oid) oid).2 s) = none) ∧
    (update_order (update_order b (.Cancel oid) oid).2 (.Cancel oid) oid).1 =
      .error .orderNotFound := by
  have hne : lvl ≠ [] := by
    intro hc
    subst hc
    simp at hcount
  obtain ⟨o0, lvl2, hrem, hid, hc0, hlen⟩ := removeById_spec oid lvl hcount
  have heq := update_order_cancel_eq b oid p s lvl o0 lvl2 hidx hlvl hne hrem
  have hlook2 : mapLookup p (side_levels (update_order b (.Cancel oid) oid).2 s) =
      if lvl2 ≠ [] then some lvl2 else none := by
    rw [heq]
    have hproj : side_levels
        ({ set_side_levels b s (retainNonempty (mapSet p lvl2 (side_levels b s))) with
            orders := mapRemove oid b.orders }) s =
        retainNonempty (mapSet p lvl2 (side_levels b s)) := by
      cases s <;> rfl
    simp only [hproj]
    rw [mapLookup_retain p (keysNodup_mapSet hnd), mapLookup_set_self]
    by_cases hv : lvl2 ≠ [] <;> simp [hv]
  refine ⟨by rw [heq], ?_, ?_, ?_, ?_⟩
  · rw [heq]
    exact mapLookup_remove_self oid b.orders
  · intro lvl3 hl3 o ho hoid
    rw [hlook2] at hl3
    by_cases hv : lvl2 ≠ []
    · rw [if_pos hv] at hl3
      cases hl3
      have hpos : 0 < List.countP (fun x => decide (x.id = oid)) lvl2 :=
        List.countP_pos_iff.mpr ⟨o, ho, by simp [hoid]⟩
      omega
    · rw [if_neg hv] at hl3
      simp at hl3
  · intro h1
    have : lvl2 = [] := List.eq_nil_of_length_eq_zero (by omega)
    rw [hlook2, this]
    simp
  · have hlookup2 : mapLookup oid (update_order b (.Cancel oid) oid).2.orders = none := by
      rw [heq]
      exact mapLookup_remove_self oid b.orders
    exact update_order_not_found _ _ _ hlookup2

/-- Witness for C6 at `bookC6Witness`: cancelling order 7 empties and
prunes its level, clears the index, and a repeated cancel reports
"order not found". -/
theorem update_order_cancel_spec_witness :
    mapLookup 7 bookC6Witness.orders = some (100, .Buy) ∧
    mapLookup 100 (side_levels bookC6Witness .Buy) = some [⟨7, 100, 5, .Buy, 0⟩] ∧
    ([⟨7, 100, 5, .Buy, 0⟩] : Level).countP (fun o => decide (o.id = 7)) = 1 ∧
    keysNodup (side_levels bookC6Witness .Buy) ∧
    ((update_order bookC6Witness (.Cancel 7) 7).1 = .ok () ∧
     mapLookup 7 (update_order bookC6Witness (.Cancel 7) 7).2.orders = none ∧
     (∀ lvl2, mapLookup 100 (side_levels (update_order bookC6Witness (.Cancel 7) 7).2 .Buy) =
         some lvl2 → ∀ o ∈ lvl2, o.id ≠ 7) ∧
     (([⟨7, 100, 5, .Buy, 0⟩] : Level).length = 1 →
       mapLookup 100 (side_levels (update_order bookC6Witness (.Cancel 7) 7).2 .Buy) = none) ∧
     (update_order (update_order bookC6Witness (.Cancel 7) 7).2 (.Cancel 7) 7).1 =
       .error .orderNotFound) :=
  ⟨by decide, by decide, by decide, by decide,
   update_order_cancel_spec bookC6Witness 7 100 .Buy [⟨7, 100, 5, .Buy, 0⟩]
     (by decide) (by decide) (by decide) (by decide)⟩

/-- Characterisation of the retry pop loop: it pops a prefix of the
queue, keeps exactly that prefix's nonzero entries (discarding the zero
ones), and keeps at most `mx` of them. -/
theorem collect_retry_spec : ∀ (q : List (Nat × Nat)) (mx : Nat), 0 < mx →
    ∃ k, q = q.take k ++ (collect_retry mx q).2 ∧
      (collect_retry mx q).1 = (q.take k).filter (fun e => decide (e.2 ≠ 0)) ∧
      (collect_retry mx q).1.length ≤ mx := by
  intro q
  induction q with
  | nil =>
    intro mx h
    exact ⟨0, by simp [collect_retry], by simp [collect_retry], by simp [collect_retry]⟩
  | cons e rest ih =>
    intro mx hmx
    obtain ⟨oid, qq⟩ := e
    by_cases hq : qq = 0
    · obtain ⟨k, h1, h2, h3⟩ := ih mx hmx
      subst hq
      refine ⟨k + 1, ?_, ?_, ?_⟩
      · simpa [collect_retry] using h1
      · simpa [collect_retry] using h2
      · simpa [collect_retry] using h3
    · by_cases hm : mx ≤ 1
      · refine ⟨1, ?_, ?_, ?_⟩
      -- `max_orders <= 1`: the pushed entry reaches the bound at once
        · simp [collect_retry, hq, hm]
        · simp [collect_retry, hq, hm]
        · simp [collect_retry, hq, hm]
          omega
      · have hmx2 : 0 < mx - 1 := by omega
        obtain ⟨k, h1, h2, h3⟩ := ih (mx - 1) hmx2
        rcases hcr : collect_retry (mx - 1) rest with ⟨c, r⟩
        rw [hcr] at h1 h2 h3
        refine ⟨k + 1, ?_, ?_, ?_⟩
        · simpa [collect_retry, hq, hm, hcr] using h1
        · simpa [collect_retry, hq, hm, hcr] using h2
        · have hgoal : (collect_retry mx ((oid, qq) :: rest)).1 = (oid, qq) :: c := by
            simp [collect_retry, hq, hm, hcr]
          rw [hgoal]
          simp only [List.length_cons]
          simp only at h3
          omega

theorem collect_retry_nonzero {q : List (Nat × Nat)} {mx : Nat} (hmx : 0 < mx) :
    ∀ e ∈ (collect_retry mx q).1, e.2 ≠ 0 := by
  obtain ⟨k, _, h2, _⟩ := collect_retry_spec q mx hmx
  intro e he
  rw [h2] at he
  have := List.of_mem_filter he
  simpa using this

theorem collect_retry_no_zeros {q : List (Nat × Nat)} {mx : Nat} (hmx : 0 < mx)
    (hq : ∀ e ∈ q, e.2 ≠ 0) :
    q = (collect_retry mx q).1 ++ (collect_retry mx q).2 := by
  obtain ⟨k, h1, h2, _⟩ := collect_retry_spec q mx hmx
  have hfil : (q.take k).filter (fun e => decide (e.2 ≠ 0)) = q.take k := by
    rw [List.filter_eq_self]
    intro a ha
    have : a ∈ q := List.mem_of_mem_take ha
    simpa using hq a this
  rw [h2, hfil]
  exact h1

/-- One direct market submission only ever appends at most one (positive)
entry to its own side's retry queue and leaves the other queue alone. -/
theorem submit_direct_queue_delta (b : OrderBook) (now oid qq : Nat) (s : Side)
    (h : 0 < qq) :
    ∃ d, side_queue (submit_market_order_direct b now oid qq s).2 s =
        side_queue b s ++ d ∧
      d.length ≤ 1 ∧ (∀ e ∈ d, (0:Nat) < e.2) ∧
      (∀ s2, s2 ≠ s →
        side_queue (submit_market_order_direct b now oid qq s).2 s2 = side_queue b s2) := by
  rcases hbo : (best_opp b s).1 with _ | val
  · have hb : best_opp b s = (none, (best_opp b s).2) := Prod.ext hbo rfl
    have hD : submit_market_order_direct b now oid qq s =
        (.ok qq, push_queue (best_opp b s).2 s (oid, qq)) := by
      unfold submit_market_order_direct
      rw [hb]
    refine ⟨[(oid, qq)], ?_, by simp, by simpa using h, ?_⟩
    · rw [hD, side_queue_push_queue_self, side_queue_best_opp]
    · intro s2 hs2
      rw [hD, side_queue_push_queue_other _ _ hs2, side_queue_best_opp]
  · have hb : best_opp b s = (some val, (best_opp b s).2) := Prod.ext hbo rfl
    rcases hl : mapLookup val (opp_levels (best_opp b s).2 s) with _ | lvl
    · have hD : submit_market_order_direct b now oid qq s =
          (.error .priceLevelDisappeared, (best_opp b s).2) := by
        unfold submit_market_order_direct
        rw [hb]
        simp [hl]
      refine ⟨[], by simp [hD, side_queue_best_opp], by simp, by simp, ?_⟩
      intro s2 _
      simp [hD, side_queue_best_opp]
    · have hD := submit_direct_eq_some b now oid qq val s lvl hb hl
      by_cases hrem : (match_order qq lvl).1 = 0
      · refine ⟨[], ?_, by simp, by simp, ?_⟩
        · rw [hD]
          simp only [hrem, if_pos]
          rw [side_queue_update_misc, side_queue_set_opp_levels, side_queue_best_opp]
          simp
        · intro s2 _
          rw [hD]
          simp only [hrem, if_pos]
          rw [side_queue_update_misc, side_queue_set_opp_levels, side_queue_best_opp]
      · refine ⟨[(oid, (match_order qq lvl).1)], ?_, by simp, by simpa using Nat.pos_of_ne_zero hrem, ?_⟩
        · rw [hD]
          simp only [hrem, if_false]
          rw [side_queue_push_queue_self, side_queue_update_misc,
            side_queue_set_opp_levels, side_queue_best_opp]
        · intro s2 hs2
          rw [hD]
          simp only [hrem, if_false]
          rw [side_queue_push_queue_other _ _ hs2, side_queue_update_misc,
            side_queue_set_opp_levels, side_queue_best_opp]

/-- Folding direct resubmissions: the queue grows by at most one positive
entry per processed order, and only on the processed side. -/
theorem retry_fold_queue (now : Nat) (s : Side) :
    ∀ (entries : List (Nat × Nat)) (b : OrderBook), (∀ e ∈ entries, e.2 ≠ 0) →
    ∃ pushed,
      side_queue (entries.foldl
        (fun bk e => (submit_market_order_direct bk now e.1 e.2 s).2) b) s =
        side_queue b s ++ pushed ∧
      pushed.length ≤ entries.length ∧
      (∀ e ∈ pushed, (0:Nat) < e.2) ∧
      (∀ s2, s2 ≠ s →
        side_queue (entries.foldl
          (fun bk e => (submit_market_order_direct bk now e.1 e.2 s).2) b) s2 =
          side_queue b s2) := by
  intro entries
  induction entries with
  | nil => intro b _; exact ⟨[], by simp, by simp, by simp, by intro s2 _; simp⟩
  | cons e rest ih =>
    intro b hz
    obtain ⟨oid, qq⟩ := e
    have hq : 0 < qq := Nat.pos_of_ne_zero (by simpa using hz (oid, qq) (by simp))
    obtain ⟨d1, hd1, hlen1, hpos1, hother1⟩ := submit_direct_queue_delta b now oid qq s hq
    obtain ⟨d2, hd2, hlen2, hpos2, hother2⟩ :=
      ih ((submit_market_order_direct b now oid qq s).2) (fun x hx => hz x (by simp [hx]))
    refine ⟨d1 ++ d2, ?_, ?_, ?_, ?_⟩
    · simp only [List.foldl_cons]
      rw [hd2, hd1, List.append_assoc]
    · simp only [List.length_append, List.length_cons]
      omega
    · intro x hx
      rcases List.mem_append.mp hx with h1 | h1
      · exact hpos1 x h1
      · exact hpos2 x h1
    · intro s2 hs2
      simp only [List.foldl_cons]
      rw [hother2 s2 hs2, hother1 s2 hs2]

theorem side_queue_set_side_queue_self (b : OrderBook) (s : Side)
    (q : List (Nat × Nat)) : side_queue (set_side_queue b s q) s = q := by
  cases s <;> rfl

theorem side_queue_set_side_queue_other (b : OrderBook) {s s2 : Side}
    (q : List (Nat × Nat)) (h : s2 ≠ s) :
    side_queue (set_side_queue b s q) s2 = side_queue b s2 := by
  cases s <;> cases s2 <;> first | rfl | exact absurd rfl h

/-- C7: one retry trigger for a side resubmits at most `mx` (default 4)
entries, each popped nonzero entry exactly once via the internal direct
path; zero-remaining entries popped along the way are discarded and never
resubmitted; when the queue respects the no-zero-entries invariant the
trigger pops at most `mx` entries; and the outer loop never re-enqueues —
every entry added back to the queue comes from the internal path (at most
one positive remainder per resubmission, so no remainder is counted
twice), with the other side's queue untouched. -/
theorem retry_market_orders_for_side_spec (b : OrderBook) (now : Nat) (s : Side)
    (mx : Nat) (hmx : 0 < mx) :
    (collect_retry mx (side_queue b s)).1.length ≤ mx ∧
    (∀ e ∈ (collect_retry mx (side_queue b s)).1, e.2 ≠ 0) ∧
    ((∀ e ∈ side_queue b s, e.2 ≠ 0) →
      side_queue b s =
        (collect_retry mx (side_queue b s)).1 ++ (collect_retry mx (side_queue b s)).2) ∧
    (∃ pushed,
      side_queue (retry_market_orders_for_side b now s mx) s =
        (collect_retry mx (side_queue b s)).2 ++ pushed ∧
      pushed.length ≤ (collect_retry mx (side_queue b s)).1.length ∧
      (∀ e ∈ pushed, (0:Nat) < e.2)) ∧
    (∀ s2, s2 ≠ s →
      side_queue (retry_market_orders_for_side b now s mx) s2 = side_queue b s2) := by
  obtain ⟨k, hk1, hk2, hk3⟩ := collect_retry_spec (side_queue b s) mx hmx
  have hnz := collect_retry_nonzero (q := side_queue b s) hmx
  rcases hcr : collect_retry mx (side_queue b s) with ⟨ro, rest⟩
  rw [hcr] at hk1 hk2 hk3 hnz
  simp only at hk2 hk3 hnz hk1
  have hretry : retry_market_orders_for_side b now s mx =
      ro.foldl (fun bk e => (submit_market_order_direct bk now e.1 e.2 s).2)
        (set_side_queue b s rest) := by
    unfold retry_market_orders_for_side
    rw [hcr]
  obtain ⟨pushed, hp1, hp2, hp3, hp4⟩ :=
    retry_fold_queue now s ro (set_side_queue b s rest) hnz
  refine ⟨hk3, hnz, ?_, ⟨pushed, ?_, hp2, hp3⟩, ?_⟩
  · intro hq
    have := collect_retry_no_zeros (q := side_queue b s) hmx hq
    rw [hcr] at this
    exact this
  · rw [hretry, hp1, side_queue_set_side_queue_self]
  · intro s2 hs2
    rw [hretry, hp4 s2 hs2, side_queue_set_side_queue_other _ _ hs2]

/-- Witness for C7: a bid queue holding `(1,2), (2,0), (3,1)` under the
default limit 4 — the zero entry is discarded, both others resubmitted. -/
theorem retry_market_orders_for_side_spec_witness :
    (0 : Nat) < 4 ∧
    ((collect_retry 4 (side_queue bookC7Witness .Buy)).1.length ≤ 4 ∧
     (∀ e ∈ (collect_retry 4 (side_queue bookC7Witness .Buy)).1, e.2 ≠ 0) ∧
     ((∀ e ∈ side_queue bookC7Witness .Buy, e.2 ≠ 0) →
       side_queue bookC7Witness .Buy =
         (collect_retry 4 (side_queue bookC7Witness .Buy)).1 ++
           (collect_retry 4 (side_queue bookC7Witness .Buy)).2) ∧
     (∃ pushed,
       side_queue (retry_market_orders_for_side bookC7Witness 9 .Buy 4) .Buy =
         (collect_retry 4 (side_queue bookC7Witness .Buy)).2 ++ pushed ∧
       pushed.length ≤ (collect_retry 4 (side_queue bookC7Witness .Buy)).1.length ∧
       (∀ e ∈ pushed, (0:Nat) < e.2)) ∧
     (∀ s2, s2 ≠ Side.Buy →
       side_queue (retry_market_orders_for_side bookC7Witness 9 .Buy 4) s2 =
         side_queue bookC7Witness s2)) :=
  ⟨by decide, retry_market_orders_for_side_spec bookC7Witness 9 .Buy 4 (by decide)⟩

theorem last_traded_push_queue (b : OrderBook) (s : Side) (e : Nat × Nat) :
    (push_queue b s e).last_traded_at = b.last_traded_at := by
  cases s <;> rfl

theorem last_traded_set_side_queue (b : OrderBook) (s : Side)
    (q : List (Nat × Nat)) :
    (set_side_queue b s q).last_traded_at = b.last_traded_at := by
  cases s <;> rfl

theorem last_traded_set_side_levels (b : OrderBook) (s : Side)
    (m : List (Nat × Level)) :
    (set_side_levels b s m).last_traded_at = b.last_traded_at := by
  cases s <;> rfl

theorem last_traded_update_cached_best_bid (p : Nat) (b : OrderBook) :
    (update_cached_best_bid p b).last_traded_at = b.last_traded_at := by
  unfold update_cached_best_bid
  by_cases h : b.cached_best_bid < p
  · rw [if_pos h]
  · rw [if_neg h]

theorem last_traded_update_cached_best_ask (p : Nat) (b : OrderBook) :
    (update_cached_best_ask p b).last_traded_at = b.last_traded_at := by
  unfold update_cached_best_ask
  by_cases h : p < b.cached_best_ask
  · rw [if_pos h]
  · rw [if_neg h]

theorem last_traded_insert_resting (b : OrderBook) (o : Order) :
    (insert_resting b o).last_traded_at = b.last_traded_at := by
  unfold insert_resting
  cases ho : o.side
  · rw [last_traded_update_cached_best_bid]
  · rw [last_traded_update_cached_best_ask]

/-- A direct market submission leaves the last-trade timestamp alone or
stamps it with `now`; when the opposing best price exists and its level is
present, it is stamped with `now` (a match happened). -/
theorem last_traded_direct (b : OrderBook) (now oid qq : Nat) (s : Side) :
    ((submit_market_order_direct b now oid qq s).2.last_traded_at = b.last_traded_at ∨
     (submit_market_order_direct b now oid qq s).2.last_traded_at = now) ∧
    (∀ val lvl, best_opp b s = (some val, (best_opp b s).2) →
      mapLookup val (opp_levels (best_opp b s).2 s) = some lvl →
      (submit_market_order_direct b now oid qq s).2.last_traded_at = now) := by
  have hbase := (best_opp_snd_fields b s).2.2.2.2.2
  constructor
  · rcases hbo : (best_opp b s).1 with _ | val
    · have hb : best_opp b s = (none, (best_opp b s).2) := Prod.ext hbo rfl
      have hD : submit_market_order_direct b now oid qq s =
          (.ok qq, push_queue (best_opp b s).2 s (oid, qq)) := by
        unfold submit_market_order_direct
        rw [hb]
      left
      rw [hD]
      simp only [last_traded_push_queue]
      exact hbase
    · have hb : best_opp b s = (some val, (best_opp b s).2) := Prod.ext hbo rfl
      rcases hl : mapLookup val (opp_levels (best_opp b s).2 s) with _ | lvl
      · have hD : submit_market_order_direct b now oid qq s =
            (.error .priceLevelDisappeared, (best_opp b s).2) := by
          unfold submit_market_order_direct
          rw [hb]
          simp [hl]
        left
        rw [hD]
        exact hbase
      · right
        have hD := submit_direct_eq_some b now oid qq val s lvl hb hl
        rw [hD]
        by_cases hrem : (match_order qq lvl).1 = 0
        · simp only [hrem, if_pos]
        · simp only [hrem, if_false]
          simp only [last_traded_push_queue]
  · intro val lvl hb hl
    have hD := submit_direct_eq_some b now oid qq val s lvl hb hl
    rw [hD]
    by_cases hrem : (match_order qq lvl).1 = 0
    · simp only [hrem, if_pos]
    · simp only [hrem, if_false]
      simp only [last_traded_push_queue]

/-- `add_order` leaves the last-trade timestamp alone or stamps it `now`;
when the incoming order matches, it is stamped `now`. -/
theorem last_traded_add_order (b : OrderBook) (now : Nat) (o : Order) :
    ((add_order b now o).2.last_traded_at = b.last_traded_at ∨
     (add_order b now o).2.last_traded_at = now) ∧
    ((limit_match b o).1.isSome = true → (add_order b now o).2.last_traded_at = now) := by
  have hb1last : (limit_match b o).2.last_traded_at = b.last_traded_at := by
    unfold limit_match
    cases ho : o.side
    · rcases hba : best_ask b with ⟨bo, b1⟩
      have hb1 : b1 = (best_ask b).2 := by rw [hba]
      have := (best_opp_snd_fields b Side.Buy).2.2.2.2.2
      simp only [best_opp] at this
      rcases bo with _ | price
      · simpa [hb1] using this
      · by_cases hp : price ≤ o.price
        · rcases hl2 : mapLookup price (best_ask b).2.asks with _ | lvl <;>
            simp [hp, hl2, hb1, this]
        · simp [hp, hb1, this]
    · rcases hba : best_bid b with ⟨bo, b1⟩
      have hb1 : b1 = (best_bid b).2 := by rw [hba]
      have := (best_opp_snd_fields b Side.Sell).2.2.2.2.2
      simp only [best_opp] at this
      rcases bo with _ | price
      · simpa [hb1] using this
      · by_cases hp : o.price ≤ price
        · rcases hl2 : mapLookup price (best_bid b).2.bids with _ | lvl <;>
            simp [hp, hl2, hb1, this]
        · simp [hp, hb1, this]
  rcases hlm : limit_match b o with ⟨mo, b1⟩
  rw [hlm] at hb1last
  simp only at hb1last
  rcases mo with _ | r
  · constructor
    · left
      unfold add_order
      rw [hlm]
      simp only [last_traded_insert_resting]
      exact hb1last
    · intro hc
      simp at hc
  · obtain ⟨pr, rem, lvl2, filled⟩ := r
    have hmain : (add_order b now o).2.last_traded_at = now := by
      unfold add_order
      rw [hlm]
      cases hs : o.side
      all_goals rcases hrs : remove_filled_strict filled b1.orders with ⟨err, idx2⟩
      all_goals rcases err with _ | e
      all_goals by_cases hrem : 0 < rem
      all_goals simp [hrs, hrem, last_traded_insert_resting]
    exact ⟨Or.inr hmain, fun _ => hmain⟩

theorem last_traded_retry_fold (now : Nat) (s : Side) :
    ∀ (entries : List (Nat × Nat)) (b : OrderBook),
      ((entries.foldl (fun bk e =>
          (submit_market_order_direct bk now e.1 e.2 s).2) b).last_traded_at =
        b.last_traded_at ∨
       (entries.foldl (fun bk e =>
          (submit_market_order_direct bk now e.1 e.2 s).2) b).last_traded_at = now) := by
  intro entries
  induction entries with
  | nil => intro b; exact Or.inl rfl
  | cons e rest ih =>
    intro b
    have h1 := (last_traded_direct b now e.1 e.2 s).1
    have h2 := ih ((submit_market_order_direct b now e.1 e.2 s).2)
    simp only [List.foldl_cons]
    rcases h2 with h2 | h2
    · rw [h2]
      exact h1
    · exact Or.inr h2

theorem last_traded_retry_side (b : OrderBook) (now : Nat) (s : Side) (mx : Nat) :
    (retry_market_orders_for_side b now s mx).last_traded_at = b.last_traded_at ∨
    (retry_market_orders_for_side b now s mx).last_traded_at = now := by
  unfold retry_market_orders_for_side
  rcases hcr : collect_retry mx (side_queue b s) with ⟨ro, rest⟩
  have := last_traded_retry_fold now s ro (set_side_queue b s rest)
  rw [last_traded_set_side_queue] at this
  simpa using this

theorem last_traded_retry_unfilled (b : OrderBook) (now mx : Nat) :
    (retry_unfilled_market_orders b now mx).last_traded_at = b.last_traded_at ∨
    (retry_unfilled_market_orders b now mx).last_traded_at = now := by
  unfold retry_unfilled_market_orders
  rcases last_traded_retry_side (retry_market_orders_for_side b now .Buy mx) now .Sell mx
    with h1 | h1
  · rw [h1]
    exact last_traded_retry_side b now .Buy mx
  · exact Or.inr h1

theorem last_traded_update_order (b : OrderBook) (u : OrderUpdate) (oid : Nat) :
    (update_order b u oid).2.last_traded_at = b.last_traded_at := by
  unfold update_order
  rcases h1 : mapLookup oid b.orders with _ | ps
  · rfl
  · obtain ⟨p, s⟩ := ps
    rcases h2 : mapLookup p (side_levels b s) with _ | lvl
    · simp [h2]
    · rcases h3 : level_update_order u lvl with ⟨found, lvl2⟩
      rcases found with _ | ord
      · simp [h2, h3, last_traded_set_side_levels]
      · rcases u with ⟨oid2, np⟩ | ⟨oid2, nq⟩ | ⟨oid2, np, nq⟩ | oid2
        · simp [h2, h3, last_traded_set_side_levels]
        · simp [h2, h3, last_traded_set_side_levels]
        · simp [h2, h3, last_traded_set_side_levels]
        · rcases h4 : mapLookup oid2 b.orders with _ | ps2 <;>
            simp [h2, h3, h4, last_traded_set_side_levels]

theorem last_traded_apply_op (now : Nat) (op : Op) (b : OrderBook) :
    (apply_op now op b).last_traded_at = b.last_traded_at ∨
    (apply_op now op b).last_traded_at = now := by
  cases op with
  | addLimit id price q s =>
    simp only [apply_op, add_to_limit_order]
    rcases hao : add_order b now ⟨id, price, q, s, now⟩ with ⟨r, b1⟩
    have hor := (last_traded_add_order b now ⟨id, price, q, s, now⟩).1
    rw [hao] at hor
    simp only at hor
    rcases r with e | v
    · simpa using hor
    · rcases last_traded_retry_unfilled b1 now MAX_ORDERS_PER_RETRY_DEFAULT with h | h
      · simpa [h] using hor
      · simp [h]
  | submitMkt id q s =>
    simp only [apply_op, submit_market_order]
    rcases hd : submit_market_order_direct b now id q s with ⟨r, b1⟩
    have hor := (last_traded_direct b now id q s).1
    rw [hd] at hor
    simp only at hor
    rcases r with e | v
    · simpa using hor
    · rcases last_traded_retry_unfilled b1 now MAX_ORDERS_PER_RETRY_DEFAULT with h | h
      · simpa [h] using hor
      · simp [h]
  | updOrder u oid =>
    simp only [apply_op]
    exact Or.inl (last_traded_update_order b u oid)

theorem clocks_ok_weaken : ∀ (l : List (Nat × Op)) (c c' : Nat), c' ≤ c →
    clocks_ok c l = true → clocks_ok c' l = true := by
  intro l
  induction l with
  | nil => intro c c' _ _; rfl
  | cons e rest _ =>
    intro c c' hle h
    obtain ⟨t, op⟩ := e
    simp only [clocks_ok, Bool.and_eq_true, decide_eq_true_eq] at h ⊢
    exact ⟨Nat.le_trans hle h.1, h.2⟩

theorem last_traded_apply_seq_mono : ∀ (l : List (Nat × Op)) (b : OrderBook),
    clocks_ok b.last_traded_at l = true →
    b.last_traded_at ≤ (apply_seq b l).last_traded_at := by
  intro l
  induction l with
  | nil => intro b _; exact Nat.le_refl _
  | cons e rest ih =>
    intro b hck
    obtain ⟨t, op⟩ := e
    simp only [clocks_ok, Bool.and_eq_true, decide_eq_true_eq] at hck
    obtain ⟨hbt, hrest⟩ := hck
    have hstep := last_traded_apply_op t op b
    have hle : b.last_traded_at ≤ (apply_op t op b).last_traded_at := by
      rcases hstep with h | h <;> omega
    have hck2 : clocks_ok (apply_op t op b).last_traded_at rest = true := by
      apply clocks_ok_weaken rest t
      · rcases hstep with h | h <;> omega
      · exact hrest
    have := ih (apply_op t op b) hck2
    simp only [apply_seq, List.foldl_cons] at this ⊢
    exact Nat.le_trans hle this

/-- C9: the last-trade timestamp is written on every successful match —
a crossing `add_order` stamps it with the operation's clock instant, and a
market submission that found an opposing best level does too — and over
any clock-consistent sequence of public operations the value read by
`last_traded_at()` never decreases. -/
theorem last_traded_at_spec (b : OrderBook) (l : List (Nat × Op)) (o : Order)
    (now order_id quantity : Nat) (s : Side)
    (hl : clocks_ok b.last_traded_at l = true)
    (hnodup : keysNodup (opp_levels b s)) :
    b.last_traded_at ≤ (apply_seq b l).last_traded_at ∧
    ((limit_match b o).1.isSome = true →
      (add_order b now o).2.last_traded_at = now) ∧
    ((best_opp b s).1.isSome = true →
      (submit_market_order_direct b now order_id quantity s).2.last_traded_at = now) := by
  refine ⟨last_traded_apply_seq_mono l b hl, (last_traded_add_order b now o).2, ?_⟩
  intro hsome
  rcases hbo : (best_opp b s).1 with _ | val
  · rw [hbo] at hsome
    simp at hsome
  · have hb : best_opp b s = (some val, (best_opp b s).2) := Prod.ext hbo rfl
    obtain ⟨lvl, hlook, _⟩ := best_opp_some_lookup hnodup hbo
    have hlook2 : mapLookup val (opp_levels (best_opp b s).2 s) = some lvl := by
      rw [opp_levels_best_opp]
      exact hlook
    exact (last_traded_direct b now order_id quantity s).2 val lvl hb hlook2

/-- Witness for C9: from `bookC2Witness` (one resting ask, timestamp 0), a
clock-ordered pair of operations keeps the reads monotone, the crossing
limit buy stamps the clock, and the market buy against the present best
level does too. -/
theorem last_traded_at_spec_witness :
    clocks_ok bookC2Witness.last_traded_at [(4, .addLimit 8 100 1 .Buy), (6, .submitMkt 9 1 .Buy)] = true ∧
    keysNodup (opp_levels bookC2Witness .Buy) ∧
    (bookC2Witness.last_traded_at ≤
      (apply_seq bookC2Witness [(4, .addLimit 8 100 1 .Buy), (6, .submitMkt 9 1 .Buy)]).last_traded_at ∧
     ((limit_match bookC2Witness ⟨8, 100, 1, .Buy, 4⟩).1.isSome = true →
       (add_order bookC2Witness 4 ⟨8, 100, 1, .Buy, 4⟩).2.last_traded_at = 4) ∧
     ((best_opp bookC2Witness .Buy).1.isSome = true →
       (submit_market_order_direct bookC2Witness 4 9 1 .Buy).2.last_traded_at = 4)) ∧
    (limit_match bookC2Witness ⟨8, 100, 1, .Buy, 4⟩).1.isSome = true ∧
    (best_opp bookC2Witness .Buy).1.isSome = true :=
  ⟨by decide, by decide,
   last_traded_at_spec bookC2Witness
     [(4, .addLimit 8 100 1 .Buy), (6, .submitMkt 9 1 .Buy)] ⟨8, 100, 1, .Buy, 4⟩
     4 9 1 .Buy (by decide) (by decide),
   by decide, by decide⟩

theorem nonemptyPrices_mapSet_subset (p : Nat) (v : Level)
    (m : List (Nat × Level)) :
    ∀ q ∈ nonemptyPrices (mapSet p v m), q = p ∨ q ∈ nonemptyPrices m := by
  intro q hq
  rcases mem_nonemptyPrices_iff.mp hq with ⟨lvl, hm, hne⟩
  rcases mem_mapSet hm with h | h
  · exact Or.inl (congrArg Prod.fst h)
  · exact Or.inr (mem_nonemptyPrices_iff.mpr ⟨lvl, h, hne⟩)

theorem nonemptyPrices_mapRemove_subset (p : Nat) (m : List (Nat × Level)) :
    ∀ q ∈ nonemptyPrices (mapRemove p m), q ∈ nonemptyPrices m := by
  intro q hq
  rcases mem_nonemptyPrices_iff.mp hq with ⟨lvl, hm, hne⟩
  exact mem_nonemptyPrices_iff.mpr ⟨lvl, mem_mapRemove hm, hne⟩

theorem nonemptyPrices_retain_subset (m : List (Nat × Level)) :
    ∀ q ∈ nonemptyPrices (retainNonempty m), q ∈ nonemptyPrices m := by
  intro q hq
  rcases mem_nonemptyPrices_iff.mp hq with ⟨lvl, hm, hne⟩
  exact mem_nonemptyPrices_iff.mpr ⟨lvl, List.mem_of_mem_filter hm, hne⟩

theorem nonemptyPrices_mapAddOrder_subset (p : Nat) (o : Order)
    (m : List (Nat × Level)) :
    ∀ q ∈ nonemptyPrices (mapAddOrder p o m), q = p ∨ q ∈ nonemptyPrices m := by
  intro q hq
  unfold mapAddOrder at hq
  rcases hl : mapLookup p m with _ | lvl
  · rw [hl] at hq
    rcases mem_nonemptyPrices_iff.mp hq with ⟨lvl2, hm, hne⟩
    rcases List.mem_append.mp hm with h | h
    · exact Or.inr (mem_nonemptyPrices_iff.mpr ⟨lvl2, h, hne⟩)
    · simp at h
      exact Or.inl h.1
  · rw [hl] at hq
    exact nonemptyPrices_mapSet_subset p (lvl ++ [o]) m q hq

/-- C1's correctness core: under the bid invariant, `best_bid()` returns
exactly the maximum nonempty bid price. -/
theorem best_bid_val_eq (b : OrderBook) (h : BidCacheInv b) :
    best_bid_val b = true_best_bid b := by
  rcases best_bid_val_cases b with h2 | ⟨h2, lvl, hl, hne⟩
  · exact h2
  · rw [h2]
    unfold true_best_bid
    have hmem : b.cached_best_bid ∈ nonemptyPrices b.bids :=
      mem_nonemptyPrices_of_lookup hl hne
    exact (maxP?_eq_of_mem_ub hmem (fun x hx => h x hx)).symm

/-- Under the ask invariant, `best_ask()` returns exactly the minimum
nonempty ask price. -/
theorem best_ask_val_eq (b : OrderBook) (h : AskCacheInv b) :
    best_ask_val b = true_best_ask b := by
  rcases best_ask_val_cases b with h2 | ⟨h2, lvl, hl, hne⟩
  · exact h2
  · rw [h2]
    unfold true_best_ask
    have hmem : b.cached_best_ask ∈ nonemptyPrices b.asks :=
      mem_nonemptyPrices_of_lookup hl hne
    exact (minP?_eq_of_mem_lb hmem (fun x hx => h x hx)).symm

theorem CacheInv_scan_best_bid (b : OrderBook) (h : CacheInv b) :
    CacheInv (scan_best_bid b).2 := by
  obtain ⟨hb, ha⟩ := h
  unfold scan_best_bid
  rcases hm : maxP? (nonemptyPrices b.bids) with _ | m
  · rw [maxP?_eq_none_iff] at hm
    exact ⟨fun p hp => (by rw [hm] at hp; cases hp), ha⟩
  · exact ⟨fun p hp => le_maxP? hp hm, ha⟩

theorem CacheInv_scan_best_ask (b : OrderBook) (h : CacheInv b) :
    CacheInv (scan_best_ask b).2 := by
  obtain ⟨hb, ha⟩ := h
  unfold scan_best_ask
  rcases hm : minP? (nonemptyPrices b.asks) with _ | m
  · rw [minP?_eq_none_iff] at hm
    exact ⟨hb, fun p hp => (by rw [hm] at hp; cases hp)⟩
  · exact ⟨hb, fun p hp => minP?_le hp hm⟩

theorem CacheInv_best_bid (b : OrderBook) (h : CacheInv b) :
    CacheInv (best_bid b).2 := by
  unfold best_bid
  by_cases h1 : b.cached_best_bid ≠ 0
  · rw [if_pos h1]
    rcases hl : mapLookup b.cached_best_bid b.bids with _ | lvl
    · exact CacheInv_scan_best_bid b h
    · by_cases h2 : lvl ≠ []
      · simpa [h2] using h
      · simp only [h2, if_false]
        exact CacheInv_scan_best_bid b h
  · rw [if_neg h1]
    exact CacheInv_scan_best_bid b h

theorem CacheInv_best_ask (b : OrderBook) (h : CacheInv b) :
    CacheInv (best_ask b).2 := by
  unfold best_ask
  by_cases h1 : b.cached_best_ask ≠ U64_MAX
  · rw [if_pos h1]
    rcases hl : mapLookup b.cached_best_ask b.asks with _ | lvl
    · exact CacheInv_scan_best_ask b h
    · by_cases h2 : lvl ≠ []
      · simpa [h2] using h
      · simp only [h2, if_false]
        exact CacheInv_scan_best_ask b h
  · rw [if_neg h1]
    exact CacheInv_scan_best_ask b h

theorem CacheInv_best_opp (b : OrderBook) (s : Side) (h : CacheInv b) :
    CacheInv (best_opp b s).2 := by
  cases s
  · exact CacheInv_best_ask b h
  · exact CacheInv_best_bid b h

/-- The cache invariants only read the side maps and the two cache
slots. -/
theorem CacheInv_of_fields {b b' : OrderBook} (h1 : b'.bids = b.bids)
    (h2 : b'.asks = b.asks) (h3 : b'.cached_best_bid = b.cached_best_bid)
    (h4 : b'.cached_best_ask = b.cached_best_ask) (h : CacheInv b) :
    CacheInv b' := by
  obtain ⟨hb, ha⟩ := h
  constructor
  · intro p hp
    rw [h1] at hp
    rw [h3]
    exact hb p hp
  · intro p hp
    rw [h2] at hp
    rw [h4]
    exact ha p hp

theorem push_queue_fields (b : OrderBook) (s : Side) (e : Nat × Nat) :
    (push_queue b s e).bids = b.bids ∧ (push_queue b s e).asks = b.asks ∧
    (push_queue b s e).cached_best_bid = b.cached_best_bid ∧
    (push_queue b s e).cached_best_ask = b.cached_best_ask := by
  cases s <;> exact ⟨rfl, rfl, rfl, rfl⟩

theorem set_side_queue_fields (b : OrderBook) (s : Side) (q : List (Nat × Nat)) :
    (set_side_queue b s q).bids = b.bids ∧ (set_side_queue b s q).asks = b.asks ∧
    (set_side_queue b s q).cached_best_bid = b.cached_best_bid ∧
    (set_side_queue b s q).cached_best_ask = b.cached_best_ask := by
  cases s <;> exact ⟨rfl, rfl, rfl, rfl⟩

theorem CacheInv_push_queue (b : OrderBook) (s : Side) (e : Nat × Nat)
    (h : CacheInv b) : CacheInv (push_queue b s e) := by
  obtain ⟨h1, h2, h3, h4⟩ := push_queue_fields b s e
  exact CacheInv_of_fields h1 h2 h3 h4 h

theorem CacheInv_set_side_queue (b : OrderBook) (s : Side)
    (q : List (Nat × Nat)) (h : CacheInv b) : CacheInv (set_side_queue b s q) := by
  obtain ⟨h1, h2, h3, h4⟩ := set_side_queue_fields b s q
  exact CacheInv_of_fields h1 h2 h3 h4 h

theorem CacheInv_insert_resting (b : OrderBook) (o : Order) (h : CacheInv b) :
    CacheInv (insert_resting b o) := by
  obtain ⟨hb, ha⟩ := h
  unfold insert_resting update_cached_best_bid update_cached_best_ask
  cases ho : o.side
  · by_cases hc : b.cached_best_bid < o.price
    · simp only [hc, if_true]
      constructor
      · intro q hq
        rcases nonemptyPrices_mapAddOrder_subset o.price o b.bids q hq with h2 | h2
        · exact Nat.le_of_eq h2
        · exact Nat.le_trans (hb q h2) (Nat.le_of_lt hc)
      · intro q hq
        exact ha q hq
    · simp only [hc, if_false]
      constructor
      · intro q hq
        rcases nonemptyPrices_mapAddOrder_subset o.price o b.bids q hq with h2 | h2
        · subst h2
          show o.price ≤ b.cached_best_bid
          omega
        · exact hb q h2
      · intro q hq
        exact ha q hq
  · by_cases hc : o.price < b.cached_best_ask
    · simp only [hc, if_true]
      constructor
      · intro q hq
        exact hb q hq
      · intro q hq
        rcases nonemptyPrices_mapAddOrder_subset o.price o b.asks q hq with h2 | h2
        · subst h2
          show o.price ≤ o.price
          omega
        · exact Nat.le_trans (Nat.le_of_lt hc) (ha q h2)
    · simp only [hc, if_false]
      constructor
      · intro q hq
        exact hb q hq
      · intro q hq
        rcases nonemptyPrices_mapAddOrder_subset o.price o b.asks q hq with h2 | h2
        · subst h2
          show b.cached_best_ask ≤ o.price
          omega
        · exact ha q h2

/-- The levels of the best-price reader's output book, by side. -/
theorem best_opp_bids_asks (b : OrderBook) (s : Side) :
    (best_opp b s).2.bids = b.bids ∧ (best_opp b s).2.asks = b.asks := by
  obtain ⟨h1, h2, _⟩ := best_opp_snd_fields b s
  exact ⟨h1, h2⟩

theorem CacheInv_submit_direct (b : OrderBook) (now oid qq : Nat) (s : Side)
    (h : CacheInv b) : CacheInv (submit_market_order_direct b now oid qq s).2 := by
  have hinv1 : CacheInv (best_opp b s).2 := CacheInv_best_opp b s h
  rcases hbo : (best_opp b s).1 with _ | val
  · have hb : best_opp b s = (none, (best_opp b s).2) := Prod.ext hbo rfl
    have hD : submit_market_order_direct b now oid qq s =
        (.ok qq, push_queue (best_opp b s).2 s (oid, qq)) := by
      unfold submit_market_order_direct
      rw [hb]
    rw [hD]
    exact CacheInv_push_queue _ s _ hinv1
  · have hb : best_opp b s = (some val, (best_opp b s).2) := Prod.ext hbo rfl
    rcases hl : mapLookup val (opp_levels (best_opp b s).2 s) with _ | lvl
    · have hD : submit_market_order_direct b now oid qq s =
          (.error .priceLevelDisappeared, (best_opp b s).2) := by
        unfold submit_market_order_direct
        rw [hb]
        simp [hl]
      rw [hD]
      exact hinv1
    · have hD := submit_direct_eq_some b now oid qq val s lvl hb hl
      have hmem : val ∈ nonemptyPrices (opp_levels (best_opp b s).2 s) := by
        have h1 := best_opp_some_mem hbo
        rw [opp_levels_best_opp]
        exact h1
      -- the book after the level write-back
      have hinv2 : CacheInv (set_opp_levels (best_opp b s).2 s
          (if (match_order qq lvl).2.1 = [] then
            mapRemove val (opp_levels (best_opp b s).2 s)
           else mapSet val (match_order qq lvl).2.1 (opp_levels (best_opp b s).2 s))) := by
        obtain ⟨hib, hia⟩ := hinv1
        cases s
        · -- market buy mutates the ask map
          constructor
          · intro q hq
            exact hib q hq
          · intro q hq
            by_cases hemp : (match_order qq lvl).2.1 = []
            · rw [if_pos hemp] at hq
              exact hia q (nonemptyPrices_mapRemove_subset val _ q hq)
            · rw [if_neg hemp] at hq
              rcases nonemptyPrices_mapSet_subset val _ _ q hq with h2 | h2
              · subst h2
                exact hia q hmem
              · exact hia q h2
        · -- market sell mutates the bid map
          constructor
          · intro q hq
            by_cases hemp : (match_order qq lvl).2.1 = []
            · rw [if_pos hemp] at hq
              exact hib q (nonemptyPrices_mapRemove_subset val _ q hq)
            · rw [if_neg hemp] at hq
              rcases nonemptyPrices_mapSet_subset val _ _ q hq with h2 | h2
              · subst h2
                exact hib q hmem
              · exact hib q h2
          · intro q hq
            exact hia q hq
      rw [hD]
      by_cases hrem : (match_order qq lvl).1 = 0
      · simp only [hrem, if_pos]
        exact CacheInv_of_fields rfl rfl rfl rfl hinv2
      · simp only [hrem, if_false]
        exact CacheInv_push_queue _ s _ (CacheInv_of_fields rfl rfl rfl rfl hinv2)

theorem CacheInv_retry_fold (now : Nat) (s : Side) :
    ∀ (entries : List (Nat × Nat)) (b : OrderBook), CacheInv b →
      CacheInv (entries.foldl
        (fun bk e => (submit_market_order_direct bk now e.1 e.2 s).2) b) := by
  intro entries
  induction entries with
  | nil => intro b h; exact h
  | cons e rest ih =>
    intro b h
    simp only [List.foldl_cons]
    exact ih _ (CacheInv_submit_direct b now e.1 e.2 s h)

theorem CacheInv_retry_side (b : OrderBook) (now : Nat) (s : Side) (mx : Nat)
    (h : CacheInv b) : CacheInv (retry_market_orders_for_side b now s mx) := by
  unfold retry_market_orders_for_side
  rcases hcr : collect_retry mx (side_queue b s) with ⟨ro, rest⟩
  exact CacheInv_retry_fold now s ro (set_side_queue b s rest)
    (CacheInv_set_side_queue b s rest h)

theorem CacheInv_retry_unfilled (b : OrderBook) (now mx : Nat) (h : CacheInv b) :
    CacheInv (retry_unfilled_market_orders b now mx) := by
  unfold retry_unfilled_market_orders
  exact CacheInv_retry_side _ now .Sell mx (CacheInv_retry_side b now .Buy mx h)

/-- The mid-match book of `limit_match` is the best-price reader's
output. -/
theorem limit_match_snd (b : OrderBook) (o : Order) :
    (limit_match b o).2 = (best_ask b).2 ∨ (limit_match b o).2 = (best_bid b).2 := by
  unfold limit_match
  cases ho : o.side
  · left
    rcases hba : best_ask b with ⟨bo, b1⟩
    have hb1 : b1 = (best_ask b).2 := by rw [hba]
    rcases bo with _ | price
    · simp [hb1]
    · by_cases hp : price ≤ o.price
      · rcases hl2 : mapLookup price (best_ask b).2.asks with _ | lvl <;>
          simp [hp, hl2, hb1]
      · simp [hp, hb1]
  · right
    rcases hba : best_bid b with ⟨bo, b1⟩
    have hb1 : b1 = (best_bid b).2 := by rw [hba]
    rcases bo with _ | price
    · simp [hb1]
    · by_cases hp : o.price ≤ price
      · rcases hl2 : mapLookup price (best_bid b).2.bids with _ | lvl <;>
          simp [hp, hl2, hb1]
      · simp [hp, hb1]

theorem CacheInv_limit_match_snd (b : OrderBook) (o : Order) (h : CacheInv b) :
    CacheInv (limit_match b o).2 := by
  rcases limit_match_snd b o with h2 | h2 <;> rw [h2]
  · exact CacheInv_best_ask b h
  · exact CacheInv_best_bid b h

/-- Case analysis of `limit_match` for a buy. -/
theorem limit_match_cases_buy (b : OrderBook) (o : Order) (ho : o.side = .Buy) :
    (limit_match b o).1 = none ∨
    ∃ pr lvl, best_ask b = (some pr, (limit_match b o).2) ∧ pr ≤ o.price ∧
      mapLookup pr (limit_match b o).2.asks = some lvl ∧
      (limit_match b o).1 = some (pr, match_order o.quantity lvl) := by
  unfold limit_match
  rw [ho]
  rcases hba : best_ask b with ⟨bo, b1⟩
  rcases bo with _ | price
  · left
    simp
  · by_cases hp : price ≤ o.price
    · rcases hl : mapLookup price b1.asks with _ | lvl
      · left
        simp [hp, hl]
      · right
        exact ⟨price, lvl, by simp [hp, hl], hp, by simp [hp, hl], by simp [hp, hl]⟩
    · left
      simp [hp]

/-- Case analysis of `limit_match` for a sell. -/
theorem limit_match_cases_sell (b : OrderBook) (o : Order) (ho : o.side = .Sell) :
    (limit_match b o).1 = none ∨
    ∃ pr lvl, best_bid b = (some pr, (limit_match b o).2) ∧ o.price ≤ pr ∧
      mapLookup pr (limit_match b o).2.bids = some lvl ∧
      (limit_match b o).1 = some (pr, match_order o.quantity lvl) := by
  unfold limit_match
  rw [ho]
  rcases hba : best_bid b with ⟨bo, b1⟩
  rcases bo with _ | price
  · left
    simp
  · by_cases hp : o.price ≤ price
    · rcases hl : mapLookup price b1.bids with _ | lvl
      · left
        simp [hp, hl]
      · right
        exact ⟨price, lvl, by simp [hp, hl], hp, by simp [hp, hl], by simp [hp, hl]⟩
    · left
      simp [hp]

theorem CacheInv_add_order (b : OrderBook) (now : Nat) (o : Order)
    (h : CacheInv b) : CacheInv (add_order b now o).2 := by
  have hinv1 : CacheInv (limit_match b o).2 := CacheInv_limit_match_snd b o h
  rcases hmo2 : (limit_match b o).1 with _ | r
  · have hlm : limit_match b o = (none, (limit_match b o).2) := Prod.ext hmo2 rfl
    have hD : add_order b now o = (.ok o.id, insert_resting (limit_match b o).2 o) := by
      unfold add_order
      rw [hlm]
    rw [hD]
    exact CacheInv_insert_resting _ o hinv1
  · obtain ⟨pr, rem, lvl2, filled⟩ := r
    have hlm : limit_match b o = (some (pr, rem, lvl2, filled), (limit_match b o).2) :=
      Prod.ext hmo2 rfl
    -- the level written back sits at a price that had resting orders
    have hmem : (o.side = .Buy ∧ pr ∈ nonemptyPrices (limit_match b o).2.asks) ∨
        (o.side = .Sell ∧ pr ∈ nonemptyPrices (limit_match b o).2.bids) := by
      cases ho : o.side
      · rcases limit_match_cases_buy b o ho with hno | ⟨pr2, lvl0, hba, _, hlk, hfst⟩
        · rw [hmo2] at hno
          cases hno
        · rw [hmo2] at hfst
          have hpr : pr2 = pr := by
            rcases hmo3 : match_order o.quantity lvl0 with ⟨r3, l3, f3⟩
            rw [hmo3] at hfst
            simp at hfst
            exact hfst.1.symm
          subst hpr
          left
          refine ⟨rfl, ?_⟩
          have hval : best_ask_val b = some pr2 := by
            unfold best_ask_val
            rw [hba]
          have hmm : pr2 ∈ nonemptyPrices b.asks := best_ask_val_some_mem hval
          have hasks : (limit_match b o).2.asks = b.asks := by
            rcases limit_match_snd b o with h2 | h2 <;> rw [h2]
            · exact (best_opp_bids_asks b .Buy).2
            · exact (best_opp_bids_asks b .Sell).2
          rw [hasks]
          exact hmm
      · rcases limit_match_cases_sell b o ho with hno | ⟨pr2, lvl0, hba, _, hlk, hfst⟩
        · rw [hmo2] at hno
          cases hno
        · rw [hmo2] at hfst
          have hpr : pr2 = pr := by
            rcases hmo3 : match_order o.quantity lvl0 with ⟨r3, l3, f3⟩
            rw [hmo3] at hfst
            simp at hfst
            exact hfst.1.symm
          subst hpr
          right
          refine ⟨rfl, ?_⟩
          have hval : best_bid_val b = some pr2 := by
            unfold best_bid_val
            rw [hba]
          have hmm : pr2 ∈ nonemptyPrices b.bids := best_bid_val_some_mem hval
          have hbids : (limit_match b o).2.bids = b.bids := by
            rcases limit_match_snd b o with h2 | h2 <;> rw [h2]
            · exact (best_opp_bids_asks b .Buy).1
            · exact (best_opp_bids_asks b .Sell).1
          rw [hbids]
          exact hmm
    obtain ⟨hib, hia⟩ := hinv1
    unfold add_order
    rw [hlm]
    cases ho : o.side
    · -- write-back on the ask side
      have hmm : pr ∈ nonemptyPrices (limit_match b o).2.asks := by
        rcases hmem with ⟨_, h2⟩ | ⟨hcontra, _⟩
        · exact h2
        · rw [ho] at hcontra
          cases hcontra
      have hinv2 : CacheInv ({ (limit_match b o).2 with
          asks := mapSet pr lvl2 (limit_match b o).2.asks, last_traded_at := now }) := by
        constructor
        · intro q hq
          exact hib q hq
        · intro q hq
          rcases nonemptyPrices_mapSet_subset pr lvl2 _ q hq with h2 | h2
          · subst h2
            exact hia q hmm
          · exact hia q h2
      simp only
      rcases hrs : remove_filled_strict filled (limit_match b o).2.orders with ⟨err, idx2⟩
      rcases err with _ | e
      · by_cases hrem : 0 < rem
        · simp only [hrs, hrem, if_true]
          exact CacheInv_insert_resting _ _ (CacheInv_of_fields rfl rfl rfl rfl hinv2)
        · simp only [hrs, hrem, if_false]
          exact CacheInv_of_fields rfl rfl rfl rfl hinv2
      · simp only [hrs]
        exact CacheInv_of_fields rfl rfl rfl rfl hinv2
    · -- write-back on the bid side
      have hmm : pr ∈ nonemptyPrices (limit_match b o).2.bids := by
        rcases hmem with ⟨hcontra, _⟩ | ⟨_, h2⟩
        · rw [ho] at hcontra
          cases hcontra
        · exact h2
      have hinv2 : CacheInv ({ (limit_match b o).2 with
          bids := mapSet pr lvl2 (limit_match b o).2.bids, last_traded_at := now }) := by
        constructor
        · intro q hq
          rcases nonemptyPrices_mapSet_subset pr lvl2 _ q hq with h2 | h2
          · subst h2
            exact hib q hmm
          · exact hib q h2
        · intro q hq
          exact hia q hq
      simp only
      rcases hrs : remove_filled_strict filled (limit_match b o).2.orders with ⟨err, idx2⟩
      rcases err with _ | e
      · by_cases hrem : 0 < rem
        · simp only [hrs, hrem, if_true]
          exact CacheInv_insert_resting _ _ (CacheInv_of_fields rfl rfl rfl rfl hinv2)
        · simp only [hrs, hrem, if_false]
          exact CacheInv_of_fields rfl rfl rfl rfl hinv2
      · simp only [hrs]
        exact CacheInv_of_fields rfl rfl rfl rfl hinv2

theorem CacheInv_set_side_levels_subset (b : OrderBook) (s : Side)
    (m' : List (Nat × Level))
    (hsub : ∀ q ∈ nonemptyPrices m', q ∈ nonemptyPrices (side_levels b s))
    (h : CacheInv b) : CacheInv (set_side_levels b s m') := by
  obtain ⟨hb, ha⟩ := h
  cases s
  · exact ⟨fun q hq => hb q (hsub q hq), fun q hq => ha q hq⟩
  · exact ⟨fun q hq => hb q hq, fun q hq => ha q (hsub q hq)⟩

theorem CacheInv_update_order (b : OrderBook) (u : OrderUpdate) (oid : Nat)
    (hu : upd_price_free u = true) (h : CacheInv b) :
    CacheInv (update_order b u oid).2 := by
  unfold update_order
  rcases h1 : mapLookup oid b.orders with _ | ps
  · exact h
  · obtain ⟨p, s⟩ := ps
    rcases h2 : mapLookup p (side_levels b s) with _ | lvl
    · simp only [h2]
      exact h
    · rcases h3 : level_update_order u lvl with ⟨found, lvl2⟩
      by_cases hlv : lvl = []
      · subst hlv
        have hsub : ∀ q ∈ nonemptyPrices (mapRemove p (side_levels b s)),
            q ∈ nonemptyPrices (side_levels b s) :=
          nonemptyPrices_mapRemove_subset p _
        have hsub2 : ∀ q ∈ nonemptyPrices (retainNonempty (mapRemove p (side_levels b s))),
            q ∈ nonemptyPrices (side_levels b s) := fun q hq =>
          hsub q (nonemptyPrices_retain_subset _ q hq)
        simp only [h2, h3, if_pos (Eq.refl ([] : Level))]
        rcases found with _ | ord
        · exact CacheInv_set_side_levels_subset b s _ hsub h
        · rcases u with ⟨oid2, np⟩ | ⟨oid2, nq⟩ | ⟨oid2, np, nq⟩ | oid2
          · simp [upd_price_free] at hu
          · exact CacheInv_set_side_levels_subset b s _ hsub2 h
          · simp [upd_price_free] at hu
          · rcases h4 : mapLookup oid2 b.orders with _ | ps2
            · simp only [h4]
              exact CacheInv_set_side_levels_subset b s _ hsub h
            · simp only [h4]
              exact CacheInv_of_fields rfl rfl rfl rfl
                (CacheInv_set_side_levels_subset b s _ hsub2 h)
      · have hp_mem : p ∈ nonemptyPrices (side_levels b s) :=
          mem_nonemptyPrices_of_lookup h2 hlv
        have hsub : ∀ q ∈ nonemptyPrices (mapSet p lvl2 (side_levels b s)),
            q ∈ nonemptyPrices (side_levels b s) := by
          intro q hq
          rcases nonemptyPrices_mapSet_subset p lvl2 _ q hq with hqe | hqe
          · subst hqe
            exact hp_mem
          · exact hqe
        have hsub2 : ∀ q ∈ nonemptyPrices (retainNonempty (mapSet p lvl2 (side_levels b s))),
            q ∈ nonemptyPrices (side_levels b s) := fun q hq =>
          hsub q (nonemptyPrices_retain_subset _ q hq)
        simp only [h2, h3, hlv, if_false]
        rcases found with _ | ord
        · exact CacheInv_set_side_levels_subset b s _ hsub h
        · rcases u with ⟨oid2, np⟩ | ⟨oid2, nq⟩ | ⟨oid2, np, nq⟩ | oid2
          · simp [upd_price_free] at hu
          · exact CacheInv_set_side_levels_subset b s _ hsub2 h
          · simp [upd_price_free] at hu
          · rcases h4 : mapLookup oid2 b.orders with _ | ps2
            · simp only [h4]
              exact CacheInv_set_side_levels_subset b s _ hsub h
            · simp only [h4]
              exact CacheInv_of_fields rfl rfl rfl rfl
                (CacheInv_set_side_levels_subset b s _ hsub2 h)

theorem CacheInv_apply_op (now : Nat) (op : Op) (b : OrderBook)
    (hop : price_move_free op = true) (h : CacheInv b) :
    CacheInv (apply_op now op b) := by
  cases op with
  | addLimit id price q s =>
    simp only [apply_op, add_to_limit_order]
    rcases hao : add_order b now ⟨id, price, q, s, now⟩ with ⟨r, b1⟩
    have hinv := CacheInv_add_order b now ⟨id, price, q, s, now⟩ h
    rw [hao] at hinv
    rcases r with e | v
    · exact hinv
    · exact CacheInv_retry_unfilled b1 now MAX_ORDERS_PER_RETRY_DEFAULT hinv
  | submitMkt id q s =>
    simp only [apply_op, submit_market_order]
    rcases hd : submit_market_order_direct b now id q s with ⟨r, b1⟩
    have hinv := CacheInv_submit_direct b now id q s h
    rw [hd] at hinv
    rcases r with e | v
    · exact hinv
    · exact CacheInv_retry_unfilled b1 now MAX_ORDERS_PER_RETRY_DEFAULT hinv
  | updOrder u oid =>
    simp only [apply_op]
    exact CacheInv_update_order b u oid (by simpa [price_move_free] using hop) h

theorem CacheInv_apply_seq : ∀ (l : List (Nat × Op)) (b : OrderBook),
    (∀ e ∈ l, price_move_free e.2 = true) → CacheInv b →
    CacheInv (apply_seq b l) := by
  intro l
  induction l with
  | nil => intro b _ h; exact h
  | cons e rest ih =>
    intro b hl h
    simp only [apply_seq, List.foldl_cons]
    exact ih (apply_op e.1 e.2 b) (fun x hx => hl x (by simp [hx]))
      (CacheInv_apply_op e.1 e.2 b (hl e (by simp)) h)

theorem CacheInv_initial : CacheInv initial_book := by
  constructor
  · intro p hp
    simp [initial_book, nonemptyPrices] at hp
  · intro p hp
    simp [initial_book, nonemptyPrices] at hp

/-- C1 counterexample: the claim as stated fails on a reachable state.
After two resting bids at 100 and 90 and an `UpdatePrice` moving the
90-bid to 110, the cache still holds 100 (the price-update path never
refreshes it), its level still has resting orders, so `best_bid()` returns
`Some 100` while the maximum bid price with `order_count() > 0` is 110. -/
theorem best_bid_stale_after_update_price :
    best_bid_val (apply_seq initial_book
      [(1, .addLimit 1 100 1 .Buy), (2, .addLimit 2 90 1 .Buy),
       (3, .updOrder (.UpdatePrice 2 110) 2)]) = some 100 ∧
    true_best_bid (apply_seq initial_book
      [(1, .addLimit 1 100 1 .Buy), (2, .addLimit 2 90 1 .Buy),
       (3, .updOrder (.UpdatePrice 2 110) 2)]) = some 110 := by
  decide

/-- C1 (amended): for every order-book state reachable from the fresh book
by public operations that do not move a resting order between price levels
(adds, market submissions, quantity updates, cancels — excluding
`UpdatePrice`/`UpdatePriceAndQuantity`, whose path does not refresh the
cache), `best_bid()` returns exactly the maximum price among bid levels
with resting orders and `best_ask()` exactly the minimum such ask price —
each `None` (never the cache's sentinel) when its side has no level with
resting orders. -/
theorem best_prices_reachable_spec (l : List (Nat × Op))
    (hl : ∀ e ∈ l, price_move_free e.2 = true) :
    best_bid_val (apply_seq initial_book l) = true_best_bid (apply_seq initial_book l) ∧
    best_ask_val (apply_seq initial_book l) = true_best_ask (apply_seq initial_book l) := by
  have hinv := CacheInv_apply_seq l initial_book hl CacheInv_initial
  exact ⟨best_bid_val_eq _ hinv.1, best_ask_val_eq _ hinv.2⟩

/-- Witness for the amended C1 on a concrete reachable state: bids at 100
and 90, one ask at 120, a market sell consuming the 100 level. -/
theorem best_prices_reachable_spec_witness :
    (∀ e ∈ [((1 : Nat), Op.addLimit 1 100 1 .Buy), (2, Op.addLimit 2 90 1 .Buy),
        (3, Op.addLimit 3 120 1 .Sell), (4, Op.submitMkt 4 1 .Sell)],
      price_move_free e.2 = true) ∧
    (best_bid_val (apply_seq initial_book
        [(1, Op.addLimit 1 100 1 .Buy), (2, Op.addLimit 2 90 1 .Buy),
         (3, Op.addLimit 3 120 1 .Sell), (4, Op.submitMkt 4 1 .Sell)]) =
      true_best_bid (apply_seq initial_book
        [(1, Op.addLimit 1 100 1 .Buy), (2, Op.addLimit 2 90 1 .Buy),
         (3, Op.addLimit 3 120 1 .Sell), (4, Op.submitMkt 4 1 .Sell)]) ∧
     best_ask_val (apply_seq initial_book
        [(1, Op.addLimit 1 100 1 .Buy), (2, Op.addLimit 2 90 1 .Buy),
         (3, Op.addLimit 3 120 1 .Sell), (4, Op.submitMkt 4 1 .Sell)]) =
      true_best_ask (apply_seq initial_book
        [(1, Op.addLimit 1 100 1 .Buy), (2, Op.addLimit 2 90 1 .Buy),
         (3, Op.addLimit 3 120 1 .Sell), (4, Op.submitMkt 4 1 .Sell)])) :=
  ⟨by decide, best_prices_reachable_spec
    [(1, Op.addLimit 1 100 1 .Buy), (2, Op.addLimit 2 90 1 .Buy),
     (3, Op.addLimit 3 120 1 .Sell), (4, Op.submitMkt 4 1 .Sell)] (by decide)⟩

end S2P.Engine
